import Mathlib

/-!
Option table dispatch of `cmdline_opts`.

A shallow embedding of `src/include/cmdline_opts.h` (the three `ArgHandler`
specialisations, `ArgDescr`, `OptDescr`, `detail::findOption`,
`detail::optsUsage`, `processOptions`, `usage`) and of the option table built
in `src/test/main.cpp`.

Conventions of the embedding:

* a `const char*` that is not null, and a `std::string`, are the list of their
  characters (for the C string: the characters before the terminating NUL);
  a nullable `const char*` and a `std::experimental::optional<std::string>`
  are an `Option` of such a list;
* a callback captures caller-owned variables by reference and mutates them;
  it is a function on the captured state `σ`, and is taken to return normally;
* the run carries two ghost logs, one of the `apply` calls made by
  `processOptions` and one of the callback invocations made by `apply`, so
  that "is invoked with" and "is not invoked" are statements about the run;
* `std::cout` is the list of the characters written to it, `std::endl` a line
  end; arithmetic in `std::string::size_type` is taken modulo `2 ^ 64`.
-/

namespace cmdline_opts

/-- Characters of a C string (before its terminator) or of a `std::string`. -/
abbrev CStr := List Char

/-- The read `s[i]` on a C string: the character at `i`, and the terminating
NUL when `i` is the length of the string. -/
def charAt (s : CStr) (i : Nat) : Char := s.getD i (Char.ofNat 0)

/-- One invocation of a callback `m_u`, with what it received. -/
inductive Call where
  /-- The call `m_u()`. -/
  | nullary : Call
  /-- The call `m_u(s)` with the possibly absent value `s`. -/
  | withOptional (s : Option CStr) : Call
  /-- The call `m_u(*s)` with the present value. -/
  | withString (v : CStr) : Call
  deriving DecidableEq, Repr

namespace detail

/-- The three specialisations of `ArgHandler<U>`, selected by the arity of the
callback and by whether its parameter type is an `optional`. Each owns its
callback `m_u`. -/
inductive ArgHandler (σ : Type) where
  /-- Arity 0. -/
  | flag (m_u : σ → σ) : ArgHandler σ
  /-- Arity 1, parameter of type `optional<string>`. -/
  | optional (m_u : Option CStr → σ → σ) : ArgHandler σ
  /-- Arity 1, parameter of type `string`. -/
  | mandatory (m_u : CStr → σ → σ) : ArgHandler σ

/-- What one call of `apply` did: its return value, the captured state
afterwards, and the callback invocations it made. -/
structure Applied (σ : Type) where
  ok : Bool
  st : σ
  calls : List Call

/-- The virtual `apply` of the three specialisations. -/
def ArgHandler.apply {σ : Type} : ArgHandler σ → Option CStr → σ → Applied σ
  | .flag m_u, _, st => ⟨true, m_u st, [Call.nullary]⟩
  | .optional m_u, s, st => ⟨true, m_u s st, [Call.withOptional s]⟩
  | .mandatory _, none, st => ⟨false, st, []⟩
  | .mandatory m_u, some v, st => ⟨true, m_u v st, [Call.withString v]⟩

/-- The virtual `getArg` of the three specialisations; `none` as input is the
null pointer, `none` as output the empty optional. -/
def ArgHandler.getArg {σ : Type} : ArgHandler σ → Option CStr → Option CStr
  | .flag _, _ => none
  | .optional _, none => none
  | .optional _, some s => if charAt s 0 = '-' then none else some s
  | .mandatory _, none => none
  | .mandatory _, some s => some s

end detail

/-- The class `ArgDescr`: a description and the owned handler. -/
structure ArgDescr (σ : Type) where
  m_desc : CStr
  m_f : detail.ArgHandler σ

/-- The method `ArgDescr::apply`. -/
def ArgDescr.apply {σ : Type} (a : ArgDescr σ) (s : Option CStr) (st : σ) :
    detail.Applied σ :=
  a.m_f.apply s st

/-- The method `ArgDescr::getArg`. -/
def ArgDescr.getArg {σ : Type} (a : ArgDescr σ) (s : Option CStr) : Option CStr :=
  a.m_f.getArg s

/-- The struct `OptDescr`. -/
structure OptDescr (σ : Type) where
  m_shortArgs : CStr
  m_longArg : CStr
  m_argDescr : ArgDescr σ
  m_explanation : CStr

namespace detail

/-- The algorithm `std::find_if` over a vector: the position of the first
element satisfying `p` together with that element, `none` for the end
iterator. -/
def find_if {α : Type} (p : α → Bool) : List α → Option (Nat × α)
  | [] => none
  | x :: xs =>
    if p x then some (0, x)
    else match find_if p xs with
      | none => none
      | some (k, y) => some (k + 1, y)

/-- The function `detail::findOption`. -/
def findOption {σ : Type} (arg : CStr) (opts : List (OptDescr σ)) :
    Option (Nat × OptDescr σ) :=
  if charAt arg 0 = '-' then
    if charAt arg 1 = '-' then
      find_if (fun o => decide (o.m_longArg = arg.drop 2)) opts
    else
      find_if (fun o => decide (o.m_shortArgs = arg.drop 1)) opts
  else none

end detail

/-- Caller-visible state of a run: the variables captured by the callbacks,
and the two ghost logs (oldest entry first). An entry of `applies` is the
table index of the descriptor and the value handed to `apply`; an entry of
`calls` is the table index of the descriptor and the callback invocation. -/
structure World (σ : Type) where
  st : σ
  applies : List (Nat × Option CStr)
  calls : List (Nat × Call)

/-- How the body of the `for` loop ends: with a `return`, or by falling
through with the cursor `i` as the body left it. -/
inductive BodyExit (σ : Type) where
  | ret (b : Bool) (w : World σ) : BodyExit σ
  | fallThrough (i : Nat) (w : World σ) : BodyExit σ

/-- The state with which the body of the loop ends. -/
def BodyExit.world {σ : Type} : BodyExit σ → World σ
  | .ret _ w => w
  | .fallThrough _ w => w

/-- Result of `processOptions`: the returned boolean and the state left. -/
structure Outcome (σ : Type) where
  result : Bool
  world : World σ

/-- The body of the `for` loop of `processOptions` at cursor `i`. The result
is `none` when `argv[i]` is outside the vector. -/
def loopBody {σ : Type} (argc : Nat) (argv : List CStr) (opts : List (OptDescr σ))
    (i : Nat) (w : World σ) : Option (BodyExit σ) :=
  match argv[i]? with
  | none => none
  | some o =>
    match detail.findOption o opts with
    | none => some (.ret false w)
    | some (k, d) =>
      let arg : Option CStr := if i + 1 < argc then argv[i + 1]? else none
      let s := d.m_argDescr.getArg arg
      let i1 := if s.isSome then i + 1 else i
      let r := d.m_argDescr.apply s w.st
      let w1 : World σ :=
        ⟨r.st, w.applies ++ [(k, s)], w.calls ++ r.calls.map (fun c => (k, c))⟩
      if r.ok then some (.fallThrough i1 w1) else some (.ret false w1)

/-- The `for` loop of `processOptions` from cursor `i`, at most `fuel`
iterations; `none` when the fuel runs out or a read leaves the vector. -/
def loop {σ : Type} (argc : Nat) (argv : List CStr) (opts : List (OptDescr σ))
    (fuel : Nat) (i : Nat) (w : World σ) : Option (Outcome σ) :=
  if i < argc then
    match fuel with
    | 0 => none
    | fuel + 1 =>
      match loopBody argc argv opts i w with
      | none => none
      | some (.ret b w1) => some ⟨b, w1⟩
      | some (.fallThrough i1 w1) => loop argc argv opts fuel (i1 + 1) w1
  else some ⟨true, w⟩

/-- The function `processOptions`, started on captured state `st` with empty
logs. `argv` holds the `argc` strings of the argument vector, the program
name at index 0. -/
def processOptions {σ : Type} (argc : Nat) (argv : List CStr)
    (opts : List (OptDescr σ)) (st : σ) : Option (Outcome σ) :=
  loop argc argv opts argc 1 ⟨st, [], []⟩

/-- Cursor and state after `n` more iterations of the loop started at cursor
`i`; `none` when the loop ends (or returns) before that. -/
def scanFrom {σ : Type} (argc : Nat) (argv : List CStr) (opts : List (OptDescr σ)) :
    Nat → Nat → World σ → Option (Nat × World σ)
  | 0, i, w => some (i, w)
  | n + 1, i, w =>
    if i < argc then
      match loopBody argc argv opts i w with
      | some (.fallThrough i1 w1) => scanFrom argc argv opts n (i1 + 1) w1
      | _ => none
    else none

/-- The scan of `processOptions` on `st` reaches cursor `i` with state `w`,
and `i` is the index of a token. -/
def Reaches {σ : Type} (argc : Nat) (argv : List CStr) (opts : List (OptDescr σ))
    (st : σ) (i : Nat) (w : World σ) : Prop :=
  i < argc ∧ ∃ n, scanFrom argc argv opts n 1 ⟨st, [], []⟩ = some (i, w)

/-! ## The table of the test program -/

/-- The variables of `main` captured by its callbacks; `helpShown` records
that the help callback ran (it prints the usage text and exits). -/
structure MainState where
  outputFile : CStr
  inputFile : CStr
  doAll : Bool
  helpShown : Bool
  deriving DecidableEq, Repr

/-- The variables of `main` before parsing. -/
def mainInit : MainState := ⟨[], "wibble".toList, false, false⟩

/-- The callback of `-o`, `--output`: `outputFile = s`. -/
def outputCallback (s : CStr) (st : MainState) : MainState := { st with outputFile := s }

/-- The callback of `-i`, `--input`: `if (s) inputFile = *s`. -/
def inputCallback (s : Option CStr) (st : MainState) : MainState :=
  match s with
  | some v => { st with inputFile := v }
  | none => st

/-- The callback of `-a`, `--all`: `doAll = true`. -/
def allCallback (st : MainState) : MainState := { st with doAll := true }

/-- The callback of `-?`, `--help`; printing the usage text and leaving the
process are outside the embedding, the call is recorded in `helpShown`. -/
def helpCallback (st : MainState) : MainState := { st with helpShown := true }

/-- The descriptor `-o`, `--output` of `main`. -/
def outputOpt : OptDescr MainState :=
  ⟨"o".toList, "output".toList, ⟨"<file>".toList, .mandatory outputCallback⟩,
    "the file to output to".toList⟩

/-- The descriptor `-i`, `--input` of `main`. -/
def inputOpt : OptDescr MainState :=
  ⟨"i".toList, "input".toList, ⟨"<file>".toList, .optional inputCallback⟩,
    "the file to input from".toList⟩

/-- The descriptor `-a`, `--all` of `main`. -/
def allOpt : OptDescr MainState :=
  ⟨"a".toList, "all".toList, ⟨[], .flag allCallback⟩, "do all the things".toList⟩

/-- The descriptor `-?`, `--help` of `main`. -/
def helpOpt : OptDescr MainState :=
  ⟨"?".toList, "help".toList, ⟨[], .flag helpCallback⟩, "display help".toList⟩

/-- The option table built by `main`, in the order of its `emplace_back`s. -/
def mainOpts : List (OptDescr MainState) := [outputOpt, inputOpt, allOpt, helpOpt]

/-- A descriptor that reuses the short token `a` and the long token `all`,
with the optional-argument callback of `main`. -/
def shadowedOpt : OptDescr MainState :=
  ⟨"a".toList, "all".toList, ⟨"<file>".toList, .optional inputCallback⟩,
    "never selected".toList⟩

/-- The table of `main` followed by `shadowedOpt`. -/
def collidingOpts : List (OptDescr MainState) := mainOpts ++ [shadowedOpt]

/-- The state of a run of `main` before the first iteration. -/
def mainWorld : World MainState := ⟨mainInit, [], []⟩

/-- An argument vector from its tokens, the program name `prog` in front. -/
def argvOf (tokens : List String) : List CStr := "prog".toList :: tokens.map String.toList

/-! ## Shapes, checked reads and the usage text -/

/-- Whether an invocation handed a present value to its callback. -/
def Call.hasValue : Call → Bool
  | .nullary => false
  | .withOptional s => s.isSome
  | .withString _ => true

/-- Which of the three specialisations of `ArgHandler<U>` a handler is. -/
inductive Shape where
  | flag : Shape
  | optional : Shape
  | mandatory : Shape
  deriving DecidableEq, Repr

/-- The specialisation a handler belongs to, whatever its callback. -/
def detail.ArgHandler.shape {σ : Type} : detail.ArgHandler σ → Shape
  | .flag _ => Shape.flag
  | .optional _ => Shape.optional
  | .mandatory _ => Shape.mandatory

/-- Whether a nullable C string is present and begins with `-`. -/
def beginsWithDash : Option CStr → Bool
  | none => false
  | some s => decide (charAt s 0 = '-')

/-- The lookahead policy as the specification tabulates it: from the shape,
whether a following token is present, and whether it begins with `-`, whether
the following token is taken as the value. -/
def specConsumes : Shape → Bool → Bool → Bool
  | Shape.flag, _, _ => false
  | Shape.optional, present, dash => present && !dash
  | Shape.mandatory, present, _ => present

/-- The read `s[i]` with its bound: `none` when `i` lies past the terminator
of the C string. -/
def readChar (s : CStr) (i : Nat) : Option Char :=
  if i ≤ s.length then some (charAt s i) else none

/-- The C string at `&s[i]` with its bound: `none` when `i` lies past the
terminator. -/
def suffixAt (s : CStr) (i : Nat) : Option CStr :=
  if i ≤ s.length then some (s.drop i) else none

/-- The function `detail::findOption` with every access to `arg` bounded by
the terminator: the outer `none` is an access past it. -/
def detail.findOptionChecked {σ : Type} (arg : CStr) (opts : List (OptDescr σ)) :
    Option (Option (Nat × OptDescr σ)) :=
  match readChar arg 0 with
  | none => none
  | some c0 =>
    if c0 = '-' then
      match readChar arg 1 with
      | none => none
      | some c1 =>
        if c1 = '-' then
          match suffixAt arg 2 with
          | none => none
          | some s => some (detail.find_if (fun o => decide (o.m_longArg = s)) opts)
        else
          match suffixAt arg 1 with
          | none => none
          | some s => some (detail.find_if (fun o => decide (o.m_shortArgs = s)) opts)
    else some none

/-- The indices at which the body of the loop of `processOptions` reads
`argv` at cursor `i`: `argv[i]`, and, once the option is found, `argv[i+1]`
when `i + 1 < argc`. -/
def loopBodyReads {σ : Type} (argc : Nat) (argv : List CStr) (opts : List (OptDescr σ))
    (i : Nat) : List Nat :=
  match argv[i]? with
  | none => [i]
  | some o =>
    match detail.findOption o opts with
    | none => [i]
    | some _ => if i + 1 < argc then [i, i + 1] else [i]

/-- Modulus of `std::string::size_type`, taken as a 64-bit unsigned integer. -/
def sizeMod : Nat := 2 ^ 64

/-- The sum `o.m_shortArgs.size() + o.m_longArg.size()` in `size_type`. -/
def OptDescr.namesSize {σ : Type} (o : OptDescr σ) : Nat :=
  (o.m_shortArgs.length + o.m_longArg.length) % sizeMod

/-- The `std::accumulate` of `optsUsage`, the value of `maxlen`. -/
def detail.maxlen {σ : Type} (opts : List (OptDescr σ)) : Nat :=
  opts.foldl (fun l o => max l o.namesSize) 0

/-- The expression `maxlen - l + 4` in `size_type`. -/
def detail.spaceCount (maxlen l : Nat) : Nat :=
  ((maxlen + sizeMod - l) % sizeMod + 4) % sizeMod

/-- One pass of the `for` loop of `optsUsage`: the contents of `std::cout`
after the row of `o` is written behind `out`. -/
def detail.usageRow {σ : Type} (maxlen : Nat) (out : List Char) (o : OptDescr σ) :
    List Char :=
  out ++ "-".toList ++ o.m_shortArgs ++ ", --".toList ++ o.m_longArg ++
    List.replicate (detail.spaceCount maxlen o.namesSize) ' ' ++ o.m_explanation ++ ['\n']

/-- The function `detail::optsUsage`: the contents of `std::cout` afterwards,
`out` being its contents before. -/
def detail.optsUsage {σ : Type} (opts : List (OptDescr σ)) (out : List Char) : List Char :=
  opts.foldl (detail.usageRow (detail.maxlen opts)) out

/-- The function `usage`: the contents of `std::cout` afterwards, `out` being
its contents before. -/
def usage {σ : Type} (name : CStr) (opts : List (OptDescr σ)) (out : List Char) :
    List Char :=
  detail.optsUsage opts (out ++ "Usage: ".toList ++ name ++ " [OPTIONS]".toList ++ ['\n'] ++ ['\n'])

/-- A descriptor with an empty short token, as for an option that has a long
form only, with the flag callback of `main`. -/
def longOnlyOpt : OptDescr MainState :=
  ⟨[], "all".toList, ⟨[], .flag allCallback⟩, "do all the things".toList⟩

/-- A descriptor with an empty long token, as for an option that has a short
form only, with the flag callback of `main`. -/
def shortOnlyOpt : OptDescr MainState :=
  ⟨"a".toList, [], ⟨[], .flag allCallback⟩, "do all the things".toList⟩

/-- A descriptor whose short and long tokens both begin with `-`. -/
def dashedOpt : OptDescr MainState :=
  ⟨"-x".toList, "-x".toList, ⟨[], .flag allCallback⟩, "dashed names".toList⟩

/-! ## Auxiliary facts about the embedding -/

namespace detail

theorem find_if_none_iff {α : Type} (p : α → Bool) (l : List α) :
    find_if p l = none ↔ ∀ e ∈ l, p e = false := by
  induction l with
  | nil => simp [find_if]
  | cons x xs ih =>
    by_cases hx : p x = true
    · simp [find_if, hx]
    · have hx2 : p x = false := by simpa using hx
      cases hrec : find_if p xs with
      | none => simpa [find_if, hx2, hrec] using ih.mp hrec
      | some kd =>
        have hne : ¬ ∀ e ∈ xs, p e = false := fun hall => by
          rw [ih.mpr hall] at hrec; cases hrec
        simpa [find_if, hx2, hrec] using hne

theorem find_if_some_iff {α : Type} (p : α → Bool) (l : List α) (k : Nat) (d : α) :
    find_if p l = some (k, d) ↔
      l[k]? = some d ∧ p d = true ∧ ∀ j e, j < k → l[j]? = some e → p e = false := by
  induction l generalizing k with
  | nil => simp [find_if]
  | cons x xs ih =>
    by_cases hx : p x = true
    · constructor
      · intro h
        simp only [find_if, hx, if_true, Option.some.injEq, Prod.mk.injEq] at h
        obtain ⟨rfl, rfl⟩ := h
        exact ⟨by simp, hx, fun j e hj => absurd hj (Nat.not_lt_zero j)⟩
      · rintro ⟨hk, hd, hmin⟩
        cases k with
        | zero =>
          simp only [List.getElem?_cons_zero, Option.some.injEq] at hk
          subst hk
          simp [find_if, hx]
        | succ k =>
          have := hmin 0 x (Nat.succ_pos k) (by simp)
          rw [hx] at this; cases this
    · have hx2 : p x = false := by simpa using hx
      constructor
      · intro h
        cases hrec : find_if p xs with
        | none => simp [find_if, hx2, hrec] at h
        | some kd =>
          obtain ⟨k1, d1⟩ := kd
          simp [find_if, hx2, hrec] at h
          obtain ⟨rfl, rfl⟩ := h
          obtain ⟨h1, h2, h3⟩ := (ih k1).mp hrec
          refine ⟨by simpa using h1, h2, ?_⟩
          intro j e hj hje
          cases j with
          | zero =>
            simp only [List.getElem?_cons_zero, Option.some.injEq] at hje
            subst hje; exact hx2
          | succ j =>
            exact h3 j e (Nat.lt_of_succ_lt_succ hj) (by simpa using hje)
      · rintro ⟨hk, hd, hmin⟩
        cases k with
        | zero =>
          simp only [List.getElem?_cons_zero, Option.some.injEq] at hk
          subst hk
          rw [hx2] at hd; cases hd
        | succ k =>
          have hrec : find_if p xs = some (k, d) :=
            (ih k).mpr ⟨by simpa using hk, hd, fun j e hj hje =>
              hmin (j + 1) e (Nat.succ_lt_succ hj) (by simpa using hje)⟩
          simp [find_if, hx2, hrec]

/-- The position found by `find_if` depends only on the values the predicate
takes along the list. -/
theorem find_if_index_congr {α β : Type} (p : α → Bool) (q : β → Bool) :
    ∀ (l : List α) (l1 : List β), l.map p = l1.map q →
      (find_if p l).map Prod.fst = (find_if q l1).map Prod.fst := by
  intro l
  induction l with
  | nil =>
    intro l1 h
    cases l1 with
    | nil => rfl
    | cons y ys => simp at h
  | cons x xs ih =>
    intro l1 h
    cases l1 with
    | nil => simp at h
    | cons y ys =>
      simp only [List.map_cons, List.cons.injEq] at h
      obtain ⟨hxy, htl⟩ := h
      have hrec := ih ys htl
      by_cases hx : p x = true
      · have hy : q y = true := by rw [← hxy]; exact hx
        simp [find_if, hx, hy]
      · have hx2 : p x = false := by simpa using hx
        have hy : q y = false := by rw [← hxy]; exact hx2
        cases h1 : find_if p xs with
        | none =>
          cases h2 : find_if q ys with
          | none => simp [find_if, hx2, hy, h1, h2]
          | some b => rw [h1, h2] at hrec; simp at hrec
        | some a =>
          cases h2 : find_if q ys with
          | none => rw [h1, h2] at hrec; simp at hrec
          | some b =>
            rw [h1, h2] at hrec
            simp only [Option.map_some', Option.some.injEq] at hrec
            simp [find_if, hx2, hy, h1, h2, hrec]

end detail

/-- With a well-formed vector the lookahead of `processOptions` is `argv[i+1]`,
absent exactly when `i` is the last index. -/
theorem peek_eq (argc : Nat) (argv : List CStr) (i : Nat) (hargc : argv.length = argc) :
    (if i + 1 < argc then argv[i + 1]? else none) = argv[i + 1]? := by
  subst hargc
  by_cases h : i + 1 < argv.length
  · simp [h]
  · simp [h, List.getElem?_eq_none (Nat.le_of_not_lt h)]

/-- The loop body at a token that `findOption` resolves to descriptor `d` at
table index `k`. -/
theorem loopBody_found {σ : Type} (argc : Nat) (argv : List CStr) (opts : List (OptDescr σ))
    (i k : Nat) (w : World σ) (o : CStr) (d : OptDescr σ)
    (hargc : argv.length = argc) (ho : argv[i]? = some o)
    (hfind : detail.findOption o opts = some (k, d)) :
    loopBody argc argv opts i w =
      if (d.m_argDescr.apply (d.m_argDescr.getArg argv[i + 1]?) w.st).ok then
        some (.fallThrough (if (d.m_argDescr.getArg argv[i + 1]?).isSome then i + 1 else i)
          ⟨(d.m_argDescr.apply (d.m_argDescr.getArg argv[i + 1]?) w.st).st,
            w.applies ++ [(k, d.m_argDescr.getArg argv[i + 1]?)],
            w.calls ++ (d.m_argDescr.apply (d.m_argDescr.getArg argv[i + 1]?) w.st).calls.map
              (fun c => (k, c))⟩)
      else
        some (.ret false
          ⟨(d.m_argDescr.apply (d.m_argDescr.getArg argv[i + 1]?) w.st).st,
            w.applies ++ [(k, d.m_argDescr.getArg argv[i + 1]?)],
            w.calls ++ (d.m_argDescr.apply (d.m_argDescr.getArg argv[i + 1]?) w.st).calls.map
              (fun c => (k, c))⟩) := by
  simp only [loopBody, ho, hfind, peek_eq argc argv i hargc]

/-- The loop body at a token that `findOption` does not resolve. -/
theorem loopBody_not_found {σ : Type} (argc : Nat) (argv : List CStr)
    (opts : List (OptDescr σ)) (i : Nat) (w : World σ) (o : CStr)
    (ho : argv[i]? = some o) (hfind : detail.findOption o opts = none) :
    loopBody argc argv opts i w = some (.ret false w) := by
  simp only [loopBody, ho, hfind]

theorem index_lt_argc {argc : Nat} {argv : List CStr} {i : Nat} {o : CStr}
    (hargc : argv.length = argc) (ho : argv[i]? = some o) : i < argc := by
  subst hargc
  by_contra h
  rw [List.getElem?_eq_none (Nat.le_of_not_lt h)] at ho
  cases ho

/-- One iteration that falls through moves the loop on to the next cursor. -/
theorem loop_fallThrough {σ : Type} (argc : Nat) (argv : List CStr) (opts : List (OptDescr σ))
    (fuel i i1 : Nat) (w w1 : World σ) (hi : i < argc)
    (hbody : loopBody argc argv opts i w = some (.fallThrough i1 w1)) :
    loop argc argv opts (fuel + 1) i w = loop argc argv opts fuel (i1 + 1) w1 := by
  rw [loop]
  simp only [hi, if_true, hbody]

/-- One iteration that returns ends the loop with that result. -/
theorem loop_ret {σ : Type} (argc : Nat) (argv : List CStr) (opts : List (OptDescr σ))
    (fuel i : Nat) (b : Bool) (w w1 : World σ) (hi : i < argc)
    (hbody : loopBody argc argv opts i w = some (.ret b w1)) :
    loop argc argv opts (fuel + 1) i w = some ⟨b, w1⟩ := by
  rw [loop]
  simp only [hi, if_true, hbody]

theorem scanFrom_one_fallThrough {σ : Type} (argc : Nat) (argv : List CStr)
    (opts : List (OptDescr σ)) (i i1 : Nat) (w w1 : World σ) (hi : i < argc)
    (hbody : loopBody argc argv opts i w = some (.fallThrough i1 w1)) :
    scanFrom argc argv opts 1 i w = some (i1 + 1, w1) := by
  simp only [scanFrom, hi, if_true, hbody]

/-- The value `getArg` returns is absent or the lookahead itself. -/
theorem getArg_eq_none_or {σ : Type} (a : ArgDescr σ) (arg : Option CStr) :
    a.getArg arg = none ∨ a.getArg arg = arg := by
  unfold ArgDescr.getArg
  cases a.m_f with
  | flag m_u => exact Or.inl rfl
  | optional m_u =>
    cases arg with
    | none => exact Or.inl rfl
    | some s =>
      by_cases h : charAt s 0 = '-'
      · exact Or.inl (by simp [detail.ArgHandler.getArg, h])
      · exact Or.inr (by simp [detail.ArgHandler.getArg, h])
  | mandatory m_u =>
    cases arg with
    | none => exact Or.inl rfl
    | some s => exact Or.inr rfl

/-- With a well-formed vector every cursor below `argc` has a token, so the
loop body is defined there. -/
theorem loopBody_defined {σ : Type} (argc : Nat) (argv : List CStr) (opts : List (OptDescr σ))
    (i : Nat) (w : World σ) (hargc : argv.length = argc) (hi : i < argc) :
    ∃ e, loopBody argc argv opts i w = some e := by
  subst hargc
  have ho : argv[i]? = some argv[i] := List.getElem?_eq_getElem hi
  cases hfind : detail.findOption argv[i] opts with
  | none => exact ⟨_, loopBody_not_found _ argv opts i w _ ho hfind⟩
  | some kd =>
    obtain ⟨k, d⟩ := kd
    rw [loopBody_found _ argv opts i k w _ d rfl ho hfind]
    split <;> exact ⟨_, rfl⟩

/-- The body leaves the cursor where it was or one further, and never on or
past the last index plus one. -/
theorem loopBody_fallThrough_bounds {σ : Type} (argc : Nat) (argv : List CStr)
    (opts : List (OptDescr σ)) (i i1 : Nat) (w w1 : World σ) (hargc : argv.length = argc)
    (hbody : loopBody argc argv opts i w = some (.fallThrough i1 w1)) :
    i ≤ i1 ∧ i1 ≤ i + 1 ∧ i1 < argc := by
  cases ho : argv[i]? with
  | none => simp [loopBody, ho] at hbody
  | some o =>
    have hi : i < argc := index_lt_argc hargc ho
    cases hfind : detail.findOption o opts with
    | none => rw [loopBody_not_found argc argv opts i w o ho hfind] at hbody; cases hbody
    | some kd =>
      obtain ⟨k, d⟩ := kd
      rw [loopBody_found argc argv opts i k w o d hargc ho hfind] at hbody
      split at hbody
      · simp only [Option.some.injEq, BodyExit.fallThrough.injEq] at hbody
        obtain ⟨h1, -⟩ := hbody
        rcases getArg_eq_none_or d.m_argDescr argv[i + 1]? with hn | hs
        · rw [hn] at h1
          simp only [Option.isSome_none, Bool.false_eq_true, if_false] at h1
          omega
        · rw [hs] at h1
          by_cases hlt : i + 1 < argv.length
          · split at h1 <;> omega
          · rw [List.getElem?_eq_none (Nat.le_of_not_lt hlt)] at h1
            simp only [Option.isSome_none, Bool.false_eq_true, if_false] at h1
            omega
      · cases hbody

/-- Past the last index the loop ends with `true`. -/
theorem loop_done {σ : Type} (argc : Nat) (argv : List CStr) (opts : List (OptDescr σ))
    (fuel i : Nat) (w : World σ) (hi : ¬ i < argc) :
    loop argc argv opts fuel i w = some ⟨true, w⟩ := by
  cases fuel <;> simp [loop, hi]

theorem loop_zero {σ : Type} (argc : Nat) (argv : List CStr) (opts : List (OptDescr σ))
    (i : Nat) (w : World σ) (hi : i < argc) :
    loop argc argv opts 0 i w = none := by
  simp [loop, hi]

/-- With a well-formed vector and fuel for every remaining index, the loop
returns. -/
theorem loop_total {σ : Type} (argc : Nat) (argv : List CStr) (opts : List (OptDescr σ))
    (hargc : argv.length = argc) (fuel : Nat) :
    ∀ (i : Nat) (w : World σ), argc ≤ i + fuel → ∃ r, loop argc argv opts fuel i w = some r := by
  induction fuel with
  | zero =>
    intro i w h
    have hi : ¬ i < argc := by omega
    exact ⟨_, loop_done argc argv opts 0 i w hi⟩
  | succ fuel ih =>
    intro i w h
    by_cases hi : i < argc
    · obtain ⟨e, he⟩ := loopBody_defined argc argv opts i w hargc hi
      cases e with
      | ret b w1 => exact ⟨_, loop_ret argc argv opts fuel i b w w1 hi he⟩
      | fallThrough i1 w1 =>
        have hb := loopBody_fallThrough_bounds argc argv opts i i1 w w1 hargc he
        rw [loop_fallThrough argc argv opts fuel i i1 w w1 hi he]
        exact ih (i1 + 1) w1 (by omega)
    · exact ⟨_, loop_done argc argv opts (fuel + 1) i w hi⟩

/-- A result of the loop does not change with more fuel. -/
theorem loop_succ_fuel {σ : Type} (argc : Nat) (argv : List CStr) (opts : List (OptDescr σ))
    (fuel : Nat) :
    ∀ (i : Nat) (w : World σ) (r : Outcome σ),
      loop argc argv opts fuel i w = some r → loop argc argv opts (fuel + 1) i w = some r := by
  induction fuel with
  | zero =>
    intro i w r h
    by_cases hi : i < argc
    · rw [loop_zero argc argv opts i w hi] at h; cases h
    · rw [loop_done argc argv opts 0 i w hi] at h
      rw [loop_done argc argv opts 1 i w hi, h]
  | succ fuel ih =>
    intro i w r h
    by_cases hi : i < argc
    · cases he : loopBody argc argv opts i w with
      | none => rw [loop] at h; simp [hi, he] at h
      | some e =>
        cases e with
        | ret b w1 =>
          rw [loop_ret argc argv opts fuel i b w w1 hi he] at h
          rw [loop_ret argc argv opts (fuel + 1) i b w w1 hi he, h]
        | fallThrough i1 w1 =>
          rw [loop_fallThrough argc argv opts fuel i i1 w w1 hi he] at h
          rw [loop_fallThrough argc argv opts (fuel + 1) i i1 w w1 hi he]
          exact ih (i1 + 1) w1 r h
    · rw [loop_done argc argv opts (fuel + 1) i w hi] at h
      rw [loop_done argc argv opts (fuel + 1 + 1) i w hi, h]

theorem loop_add_fuel {σ : Type} (argc : Nat) (argv : List CStr) (opts : List (OptDescr σ))
    (fuel m i : Nat) (w : World σ) (r : Outcome σ)
    (h : loop argc argv opts fuel i w = some r) :
    loop argc argv opts (fuel + m) i w = some r := by
  induction m with
  | zero => exact h
  | succ m ih => exact loop_succ_fuel argc argv opts (fuel + m) i w r ih

/-- After `n` iterations from `(i0, w0)` arrive at `(i, w)`, the loop from
`(i0, w0)` is the loop from `(i, w)` with `n` units of fuel less. -/
theorem scanFrom_loop {σ : Type} (argc : Nat) (argv : List CStr) (opts : List (OptDescr σ))
    (f n : Nat) :
    ∀ (i0 i : Nat) (w0 w : World σ), scanFrom argc argv opts n i0 w0 = some (i, w) →
      loop argc argv opts (n + f) i0 w0 = loop argc argv opts f i w := by
  induction n with
  | zero =>
    intro i0 i w0 w h
    simp only [scanFrom, Option.some.injEq, Prod.mk.injEq] at h
    obtain ⟨rfl, rfl⟩ := h
    rw [Nat.zero_add]
  | succ n ih =>
    intro i0 i w0 w h
    by_cases hi : i0 < argc
    · cases he : loopBody argc argv opts i0 w0 with
      | none => simp [scanFrom, hi, he] at h
      | some e =>
        cases e with
        | ret b w1 => simp [scanFrom, hi, he] at h
        | fallThrough i1 w1 =>
          simp only [scanFrom, hi, if_true, he] at h
          have hfuel : n + 1 + f = (n + f) + 1 := by omega
          rw [hfuel, loop_fallThrough argc argv opts (n + f) i0 i1 w0 w1 hi he]
          exact ih (i1 + 1) i w1 w h
    · simp [scanFrom, hi] at h

/-- Each iteration moves the cursor forward by at least one. -/
theorem scanFrom_cursor {σ : Type} (argc : Nat) (argv : List CStr) (opts : List (OptDescr σ))
    (hargc : argv.length = argc) (n : Nat) :
    ∀ (i0 i : Nat) (w0 w : World σ), scanFrom argc argv opts n i0 w0 = some (i, w) →
      i0 + n ≤ i := by
  induction n with
  | zero =>
    intro i0 i w0 w h
    simp only [scanFrom, Option.some.injEq, Prod.mk.injEq] at h
    omega
  | succ n ih =>
    intro i0 i w0 w h
    by_cases hi : i0 < argc
    · cases he : loopBody argc argv opts i0 w0 with
      | none => simp [scanFrom, hi, he] at h
      | some e =>
        cases e with
        | ret b w1 => simp [scanFrom, hi, he] at h
        | fallThrough i1 w1 =>
          simp only [scanFrom, hi, if_true, he] at h
          have hb := loopBody_fallThrough_bounds argc argv opts i0 i1 w0 w1 hargc he
          have := ih (i1 + 1) i w1 w h
          omega
    · simp [scanFrom, hi] at h

/-- The result of `processOptions` is the result of its loop resumed at any
cursor the scan reaches. -/
theorem reaches_resume {σ : Type} (argc : Nat) (argv : List CStr) (opts : List (OptDescr σ))
    (st : σ) (i : Nat) (w : World σ) (hargc : argv.length = argc)
    (hreach : Reaches argc argv opts st i w) :
    ∃ f, processOptions argc argv opts st = loop argc argv opts (f + 1) i w := by
  obtain ⟨hi, n, hn⟩ := hreach
  have hc := scanFrom_cursor argc argv opts hargc n 1 i _ w hn
  refine ⟨argc - n - 1, ?_⟩
  have hfuel : argc = n + (argc - n - 1 + 1) := by omega
  unfold processOptions
  rw [← scanFrom_loop argc argv opts (argc - n - 1 + 1) n 1 i _ w hn, ← hfuel]

namespace detail

/-- A token `--name` is looked up among the long tokens, by equality with
`name`. -/
theorem findOption_long {σ : Type} (name : CStr) (opts : List (OptDescr σ)) :
    findOption ('-' :: '-' :: name) opts =
      find_if (fun o => decide (o.m_longArg = name)) opts := by
  simp [findOption, charAt]

/-- A token `-rest` whose second character is not `-` is looked up among the
short tokens, by equality with `rest`. -/
theorem findOption_short {σ : Type} (rest : CStr) (opts : List (OptDescr σ))
    (h : charAt rest 0 ≠ '-') :
    findOption ('-' :: rest) opts =
      find_if (fun o => decide (o.m_shortArgs = rest)) opts := by
  have h0 : charAt ('-' :: rest) 0 = '-' := rfl
  have h1 : charAt ('-' :: rest) 1 = charAt rest 0 := by simp [charAt]
  unfold findOption
  rw [if_pos h0, h1, if_neg h]
  rfl

/-- A token that does not begin with `-` is not looked up at all. -/
theorem findOption_no_dash {σ : Type} (o : CStr) (opts : List (OptDescr σ))
    (h : charAt o 0 ≠ '-') : findOption o opts = none := by
  simp [findOption, h]

end detail

/-- An `apply` that reports failure is the mandatory one on an absent value;
it has invoked nothing and changed nothing. -/
theorem apply_not_ok {σ : Type} (a : ArgDescr σ) (s : Option CStr) (st : σ)
    (h : (a.apply s st).ok = false) :
    a.apply s st = ⟨false, st, []⟩ ∧ (∃ m_u, a.m_f = .mandatory m_u) ∧ s = none := by
  unfold ArgDescr.apply at h ⊢
  cases hf : a.m_f with
  | flag m_u => rw [hf] at h; simp [detail.ArgHandler.apply] at h
  | optional m_u => rw [hf] at h; simp [detail.ArgHandler.apply] at h
  | mandatory m_u =>
    cases s with
    | none => exact ⟨rfl, ⟨m_u, rfl⟩, rfl⟩
    | some v => rw [hf] at h; simp [detail.ArgHandler.apply] at h

theorem getArg_none {σ : Type} (a : ArgDescr σ) : a.getArg none = none := by
  unfold ArgDescr.getArg
  cases a.m_f <;> rfl

/-- A loop body that returns does so with `false`, leaves the captured state
and the callback log as they were, and stands at a token that `findOption`
does not resolve or at a last token resolved to a mandatory descriptor. -/
theorem loopBody_ret {σ : Type} (argc : Nat) (argv : List CStr) (opts : List (OptDescr σ))
    (i : Nat) (b : Bool) (w w1 : World σ) (hargc : argv.length = argc)
    (hbody : loopBody argc argv opts i w = some (.ret b w1)) :
    b = false ∧ w1.st = w.st ∧ w1.calls = w.calls ∧
      ∃ o, argv[i]? = some o ∧
        (detail.findOption o opts = none ∨
          ∃ k d m_u, detail.findOption o opts = some (k, d) ∧
            d.m_argDescr.m_f = .mandatory m_u ∧ i + 1 = argc) := by
  cases ho : argv[i]? with
  | none => simp [loopBody, ho] at hbody
  | some o =>
    have hi : i < argc := index_lt_argc hargc ho
    cases hfind : detail.findOption o opts with
    | none =>
      rw [loopBody_not_found argc argv opts i w o ho hfind] at hbody
      simp only [Option.some.injEq, BodyExit.ret.injEq] at hbody
      obtain ⟨rfl, rfl⟩ := hbody
      exact ⟨rfl, rfl, rfl, o, rfl, Or.inl hfind⟩
    | some kd =>
      obtain ⟨k, d⟩ := kd
      rw [loopBody_found argc argv opts i k w o d hargc ho hfind] at hbody
      split at hbody
      · cases hbody
      · rename_i hok
        have hok2 : (d.m_argDescr.apply (d.m_argDescr.getArg argv[i + 1]?) w.st).ok = false := by
          simpa using hok
        obtain ⟨happ, ⟨m_u, hm⟩, hs⟩ := apply_not_ok _ _ _ hok2
        rw [happ] at hbody
        simp only [Option.some.injEq, BodyExit.ret.injEq] at hbody
        obtain ⟨rfl, rfl⟩ := hbody
        refine ⟨rfl, rfl, by simp, o, rfl, Or.inr ⟨k, d, m_u, hfind, hm, ?_⟩⟩
        have hpeek : argv[i + 1]? = none := by
          cases hp : argv[i + 1]? with
          | none => rfl
          | some p =>
            rw [hp] at hs
            simp [ArgDescr.getArg, hm, detail.ArgHandler.getArg] at hs
        have := List.getElem?_eq_none_iff.mp hpeek
        omega

/-- At a token that `findOption` does not resolve, or at a last token resolved
to a mandatory descriptor, the loop body returns `false`. -/
theorem loopBody_fails {σ : Type} (argc : Nat) (argv : List CStr) (opts : List (OptDescr σ))
    (i : Nat) (w : World σ) (o : CStr) (hargc : argv.length = argc)
    (ho : argv[i]? = some o)
    (hfail : charAt o 0 ≠ '-' ∨ detail.findOption o opts = none ∨
      ∃ k d m_u, detail.findOption o opts = some (k, d) ∧
        d.m_argDescr.m_f = .mandatory m_u ∧ i + 1 = argc) :
    ∃ w1, loopBody argc argv opts i w = some (.ret false w1) := by
  rcases hfail with h | h | ⟨k, d, m_u, hfind, hm, hlast⟩
  · exact ⟨w, loopBody_not_found argc argv opts i w o ho
      (detail.findOption_no_dash o opts h)⟩
  · exact ⟨w, loopBody_not_found argc argv opts i w o ho h⟩
  · have hpeek : argv[i + 1]? = none := List.getElem?_eq_none (by omega)
    have hbody := loopBody_found argc argv opts i k w o d hargc ho hfind
    have hget : d.m_argDescr.getArg argv[i + 1]? = none := by rw [hpeek, getArg_none]
    have happly : d.m_argDescr.apply none w.st = ⟨false, w.st, []⟩ := by
      simp [ArgDescr.apply, hm, detail.ArgHandler.apply]
    rw [hget, happly] at hbody
    exact ⟨_, hbody⟩

theorem scanFrom_succ {σ : Type} (argc : Nat) (argv : List CStr) (opts : List (OptDescr σ))
    (n i i1 : Nat) (w w1 : World σ) (hi : i < argc)
    (hbody : loopBody argc argv opts i w = some (.fallThrough i1 w1)) :
    scanFrom argc argv opts (n + 1) i w = scanFrom argc argv opts n (i1 + 1) w1 := by
  simp only [scanFrom, hi, if_true, hbody]

/-- A loop that ends with `false` has reached a token at which the body
returns. -/
theorem loop_false_reaches {σ : Type} (argc : Nat) (argv : List CStr)
    (opts : List (OptDescr σ)) (hargc : argv.length = argc) (fuel : Nat) :
    ∀ (i0 : Nat) (w0 : World σ) (r : Outcome σ), loop argc argv opts fuel i0 w0 = some r →
      r.result = false →
      ∃ n i w o, scanFrom argc argv opts n i0 w0 = some (i, w) ∧ i < argc ∧
        argv[i]? = some o ∧
        (detail.findOption o opts = none ∨
          ∃ k d m_u, detail.findOption o opts = some (k, d) ∧
            d.m_argDescr.m_f = .mandatory m_u ∧ i + 1 = argc) := by
  induction fuel with
  | zero =>
    intro i0 w0 r h hr
    by_cases hi : i0 < argc
    · rw [loop_zero argc argv opts i0 w0 hi] at h; cases h
    · rw [loop_done argc argv opts 0 i0 w0 hi] at h
      cases h; cases hr
  | succ fuel ih =>
    intro i0 w0 r h hr
    by_cases hi : i0 < argc
    · cases he : loopBody argc argv opts i0 w0 with
      | none => rw [loop] at h; simp [hi, he] at h
      | some e =>
        cases e with
        | ret b w1 =>
          obtain ⟨-, -, -, o, ho, hcond⟩ := loopBody_ret argc argv opts i0 b w0 w1 hargc he
          exact ⟨0, i0, w0, o, rfl, hi, ho, hcond⟩
        | fallThrough i1 w1 =>
          rw [loop_fallThrough argc argv opts fuel i0 i1 w0 w1 hi he] at h
          obtain ⟨n, i, w, o, hn, hlt, ho, hcond⟩ := ih (i1 + 1) w1 r h hr
          exact ⟨n + 1, i, w, o,
            by rw [scanFrom_succ argc argv opts n i0 i1 w0 w1 hi he, hn], hlt, ho, hcond⟩
    · rw [loop_done argc argv opts (fuel + 1) i0 w0 hi] at h
      cases h; cases hr

/-- A loop that ends with `true` has moved its cursor past the last index,
and ends with the state it had then. -/
theorem loop_true_exhausts {σ : Type} (argc : Nat) (argv : List CStr)
    (opts : List (OptDescr σ)) (hargc : argv.length = argc) (fuel : Nat) :
    ∀ (i0 : Nat) (w0 : World σ) (r : Outcome σ), loop argc argv opts fuel i0 w0 = some r →
      r.result = true →
      ∃ n i, scanFrom argc argv opts n i0 w0 = some (i, r.world) ∧ argc ≤ i := by
  induction fuel with
  | zero =>
    intro i0 w0 r h hr
    by_cases hi : i0 < argc
    · rw [loop_zero argc argv opts i0 w0 hi] at h; cases h
    · rw [loop_done argc argv opts 0 i0 w0 hi] at h
      cases h
      exact ⟨0, i0, rfl, Nat.le_of_not_lt hi⟩
  | succ fuel ih =>
    intro i0 w0 r h hr
    by_cases hi : i0 < argc
    · cases he : loopBody argc argv opts i0 w0 with
      | none => rw [loop] at h; simp [hi, he] at h
      | some e =>
        cases e with
        | ret b w1 =>
          obtain ⟨hb, -⟩ := loopBody_ret argc argv opts i0 b w0 w1 hargc he
          rw [loop_ret argc argv opts fuel i0 b w0 w1 hi he] at h
          cases h
          rw [hb] at hr; cases hr
        | fallThrough i1 w1 =>
          rw [loop_fallThrough argc argv opts fuel i0 i1 w0 w1 hi he] at h
          obtain ⟨n, i, hn, hle⟩ := ih (i1 + 1) w1 r h hr
          exact ⟨n + 1, i, by rw [scanFrom_succ argc argv opts n i0 i1 w0 w1 hi he, hn], hle⟩
    · rw [loop_done argc argv opts (fuel + 1) i0 w0 hi] at h
      cases h
      exact ⟨0, i0, rfl, Nat.le_of_not_lt hi⟩

/-- An iteration that falls through does the same on the vector cut after
the cursor it leaves. -/
theorem loopBody_take {σ : Type} (argc : Nat) (argv : List CStr) (opts : List (OptDescr σ))
    (i i1 m : Nat) (w w1 : World σ) (hargc : argv.length = argc)
    (hbody : loopBody argc argv opts i w = some (.fallThrough i1 w1))
    (h1 : i1 + 1 ≤ m) (hm : m ≤ argc) :
    loopBody m (argv.take m) opts i w = some (.fallThrough i1 w1) := by
  have hb := loopBody_fallThrough_bounds argc argv opts i i1 w w1 hargc hbody
  have hlen : (argv.take m).length = m := by
    rw [List.length_take, hargc]; exact Nat.min_eq_left hm
  cases ho : argv[i]? with
  | none => simp [loopBody, ho] at hbody
  | some o =>
    have ho1 : (argv.take m)[i]? = some o := by
      rw [List.getElem?_take_of_lt (by omega), ho]
    cases hfind : detail.findOption o opts with
    | none => rw [loopBody_not_found argc argv opts i w o ho hfind] at hbody; cases hbody
    | some kd =>
      obtain ⟨k, d⟩ := kd
      rw [loopBody_found argc argv opts i k w o d hargc ho hfind] at hbody
      rw [loopBody_found m (argv.take m) opts i k w o d hlen ho1 hfind]
      have hs : d.m_argDescr.getArg (argv.take m)[i + 1]? =
          d.m_argDescr.getArg argv[i + 1]? := by
        by_cases hlt : i + 1 < m
        · rw [List.getElem?_take_of_lt hlt]
        · have hnone : (argv.take m)[i + 1]? = none :=
            List.getElem?_eq_none (by rw [hlen]; omega)
          rw [hnone, getArg_none]
          have hbody2 := hbody
          split at hbody2
          · simp only [Option.some.injEq, BodyExit.fallThrough.injEq] at hbody2
            obtain ⟨hcur, -⟩ := hbody2
            cases hg : d.m_argDescr.getArg argv[i + 1]? with
            | none => rfl
            | some v =>
              rw [hg] at hcur
              simp only [Option.isSome_some, if_true] at hcur
              omega
          · cases hbody2
      rw [hs]
      exact hbody

/-- A loop that ends with `false` ends, on the vector cut at some index below
`argc`, with `true` and the same callback log and captured state. -/
theorem loop_false_cut {σ : Type} (argc : Nat) (argv : List CStr)
    (opts : List (OptDescr σ)) (hargc : argv.length = argc) (fuel : Nat) :
    ∀ (i0 : Nat) (w0 : World σ) (r : Outcome σ), loop argc argv opts fuel i0 w0 = some r →
      r.result = false →
      ∃ m r1, i0 ≤ m ∧ m < argc ∧ loop m (argv.take m) opts fuel i0 w0 = some r1 ∧
        r1.result = true ∧ r1.world.calls = r.world.calls ∧ r1.world.st = r.world.st := by
  induction fuel with
  | zero =>
    intro i0 w0 r h hr
    by_cases hi : i0 < argc
    · rw [loop_zero argc argv opts i0 w0 hi] at h; cases h
    · rw [loop_done argc argv opts 0 i0 w0 hi] at h
      cases h; cases hr
  | succ fuel ih =>
    intro i0 w0 r h hr
    by_cases hi : i0 < argc
    · cases he : loopBody argc argv opts i0 w0 with
      | none => rw [loop] at h; simp [hi, he] at h
      | some e =>
        cases e with
        | ret b w1 =>
          obtain ⟨-, hst, hcalls, -⟩ := loopBody_ret argc argv opts i0 b w0 w1 hargc he
          rw [loop_ret argc argv opts fuel i0 b w0 w1 hi he] at h
          cases h
          exact ⟨i0, ⟨true, w0⟩, Nat.le_refl i0, hi,
            loop_done i0 (argv.take i0) opts (fuel + 1) i0 w0 (Nat.lt_irrefl i0),
            rfl, hcalls.symm, hst.symm⟩
        | fallThrough i1 w1 =>
          have hb := loopBody_fallThrough_bounds argc argv opts i0 i1 w0 w1 hargc he
          rw [loop_fallThrough argc argv opts fuel i0 i1 w0 w1 hi he] at h
          obtain ⟨m, r1, hle, hlt, hloop, hres, hcalls, hst⟩ := ih (i1 + 1) w1 r h hr
          have hcut := loopBody_take argc argv opts i0 i1 m w0 w1 hargc he hle (by omega)
          exact ⟨m, r1, by omega, hlt,
            by rw [loop_fallThrough m (argv.take m) opts fuel i0 i1 w0 w1 (by omega) hcut,
              hloop],
            hres, hcalls, hst⟩
    · rw [loop_done argc argv opts (fuel + 1) i0 w0 hi] at h
      cases h; cases hr

/-- Iterating `n + m` times is iterating `n` times and then `m` times. -/
theorem scanFrom_add {σ : Type} (argc : Nat) (argv : List CStr) (opts : List (OptDescr σ))
    (m n : Nat) :
    ∀ (i : Nat) (w : World σ), scanFrom argc argv opts (n + m) i w =
      match scanFrom argc argv opts n i w with
      | some (i1, w1) => scanFrom argc argv opts m i1 w1
      | none => none := by
  induction n with
  | zero =>
    intro i w
    simp [scanFrom]
  | succ n ih =>
    intro i w
    have hnm : n + 1 + m = (n + m) + 1 := by omega
    rw [hnm]
    by_cases hi : i < argc
    · cases he : loopBody argc argv opts i w with
      | none => simp [scanFrom, hi, he]
      | some e =>
        cases e with
        | ret b w1 => simp [scanFrom, hi, he]
        | fallThrough i1 w1 =>
          rw [scanFrom_succ argc argv opts (n + m) i i1 w w1 hi he,
            scanFrom_succ argc argv opts n i i1 w w1 hi he]
          exact ih (i1 + 1) w1
    · simp [scanFrom, hi]

/-- A single iteration that goes on has found the option and applied it with
success. -/
theorem scanFrom_one_inv {σ : Type} (argc : Nat) (argv : List CStr) (opts : List (OptDescr σ))
    (i i2 : Nat) (w w2 : World σ)
    (h : scanFrom argc argv opts 1 i w = some (i2, w2)) :
    i < argc ∧ ∃ i1, i2 = i1 + 1 ∧ loopBody argc argv opts i w = some (.fallThrough i1 w2) := by
  by_cases hi : i < argc
  · cases he : loopBody argc argv opts i w with
    | none => simp [scanFrom, hi, he] at h
    | some e =>
      cases e with
      | ret b w1 => simp [scanFrom, hi, he] at h
      | fallThrough i1 w1 =>
        simp only [scanFrom, hi, if_true, he, Option.some.injEq, Prod.mk.injEq] at h
        obtain ⟨rfl, rfl⟩ := h
        exact ⟨hi, i1, rfl, rfl⟩
  · simp [scanFrom, hi] at h

/-- A successful `apply` on the value `getArg` chose has made exactly one
invocation, which carries a value exactly when `getArg` chose one. -/
theorem apply_ok_call {σ : Type} (a : ArgDescr σ) (arg : Option CStr) (st : σ)
    (h : (a.apply (a.getArg arg) st).ok = true) :
    ∃ c, (a.apply (a.getArg arg) st).calls = [c] ∧ c.hasValue = (a.getArg arg).isSome := by
  unfold ArgDescr.apply ArgDescr.getArg at h ⊢
  cases hf : a.m_f with
  | flag m_u => exact ⟨Call.nullary, rfl, rfl⟩
  | optional m_u => exact ⟨Call.withOptional _, rfl, rfl⟩
  | mandatory m_u =>
    cases arg with
    | none => rw [hf] at h; simp [detail.ArgHandler.apply, detail.ArgHandler.getArg] at h
    | some v => exact ⟨Call.withString v, rfl, rfl⟩

/-- What an iteration that falls through has done. -/
theorem loopBody_fallThrough_inv {σ : Type} (argc : Nat) (argv : List CStr)
    (opts : List (OptDescr σ)) (i i1 : Nat) (w w1 : World σ) (hargc : argv.length = argc)
    (hbody : loopBody argc argv opts i w = some (.fallThrough i1 w1)) :
    ∃ o k d c, argv[i]? = some o ∧ detail.findOption o opts = some (k, d) ∧
      (d.m_argDescr.apply (d.m_argDescr.getArg argv[i + 1]?) w.st).ok = true ∧
      (d.m_argDescr.apply (d.m_argDescr.getArg argv[i + 1]?) w.st).calls = [c] ∧
      c.hasValue = (d.m_argDescr.getArg argv[i + 1]?).isSome ∧
      i1 = (if (d.m_argDescr.getArg argv[i + 1]?).isSome then i + 1 else i) ∧
      w1.st = (d.m_argDescr.apply (d.m_argDescr.getArg argv[i + 1]?) w.st).st ∧
      w1.applies = w.applies ++ [(k, d.m_argDescr.getArg argv[i + 1]?)] ∧
      w1.calls = w.calls ++ [(k, c)] := by
  cases ho : argv[i]? with
  | none => simp [loopBody, ho] at hbody
  | some o =>
    cases hfind : detail.findOption o opts with
    | none => rw [loopBody_not_found argc argv opts i w o ho hfind] at hbody; cases hbody
    | some kd =>
      obtain ⟨k, d⟩ := kd
      rw [loopBody_found argc argv opts i k w o d hargc ho hfind] at hbody
      split at hbody
      · rename_i hok
        obtain ⟨c, hc, hv⟩ := apply_ok_call d.m_argDescr argv[i + 1]? w.st hok
        simp only [Option.some.injEq, BodyExit.fallThrough.injEq] at hbody
        obtain ⟨h1, h2⟩ := hbody
        refine ⟨o, k, d, c, rfl, hfind, hok, hc, hv, h1.symm, ?_, ?_, ?_⟩
        · rw [← h2]
        · rw [← h2]
        · rw [← h2, hc]; rfl
      · cases hbody

/-- A returning iteration has called `apply` at most once. -/
theorem loopBody_ret_applies {σ : Type} (argc : Nat) (argv : List CStr)
    (opts : List (OptDescr σ)) (i : Nat) (b : Bool) (w w1 : World σ)
    (hargc : argv.length = argc)
    (hbody : loopBody argc argv opts i w = some (.ret b w1)) :
    w1.applies = w.applies ∨ ∃ k, w1.applies = w.applies ++ [(k, none)] := by
  cases ho : argv[i]? with
  | none => simp [loopBody, ho] at hbody
  | some o =>
    cases hfind : detail.findOption o opts with
    | none =>
      rw [loopBody_not_found argc argv opts i w o ho hfind] at hbody
      simp only [Option.some.injEq, BodyExit.ret.injEq] at hbody
      exact Or.inl (by rw [← hbody.2])
    | some kd =>
      obtain ⟨k, d⟩ := kd
      rw [loopBody_found argc argv opts i k w o d hargc ho hfind] at hbody
      split at hbody
      · cases hbody
      · rename_i hok
        have hok2 : (d.m_argDescr.apply (d.m_argDescr.getArg argv[i + 1]?) w.st).ok = false := by
          simpa using hok
        obtain ⟨-, -, hs⟩ := apply_not_ok _ _ _ hok2
        simp only [Option.some.injEq, BodyExit.ret.injEq] at hbody
        exact Or.inr ⟨k, by rw [← hbody.2, hs]⟩

/-- The logs after `n` iterations: `n` more `apply` calls and `n` more callback
invocations, behind the earlier ones; the cursor has moved by the number of
invocations plus the number of those that carried a value. -/
theorem scanFrom_logs {σ : Type} (argc : Nat) (argv : List CStr) (opts : List (OptDescr σ))
    (hargc : argv.length = argc) (n : Nat) :
    ∀ (i0 i : Nat) (w0 w : World σ), scanFrom argc argv opts n i0 w0 = some (i, w) →
      (∃ cs, w.calls = w0.calls ++ cs ∧ cs.length = n ∧
        i = i0 + n + cs.countP (fun c => c.2.hasValue)) ∧
      w.applies.length = w0.applies.length + n := by
  induction n with
  | zero =>
    intro i0 i w0 w h
    simp only [scanFrom, Option.some.injEq, Prod.mk.injEq] at h
    obtain ⟨rfl, rfl⟩ := h
    exact ⟨⟨[], by simp, rfl, by simp⟩, rfl⟩
  | succ n ih =>
    intro i0 i w0 w h
    have hadd := scanFrom_add argc argv opts n 1 i0 w0
    rw [Nat.add_comm 1 n, h] at hadd
    cases h1 : scanFrom argc argv opts 1 i0 w0 with
    | none => rw [h1] at hadd; cases hadd
    | some iw =>
      obtain ⟨i2, w2⟩ := iw
      rw [h1] at hadd
      obtain ⟨hi, i1, rfl, hbody⟩ := scanFrom_one_inv argc argv opts i0 i2 w0 w2 h1
      obtain ⟨o, k, d, c, -, -, -, -, hv, hcur, -, happ, hcalls⟩ :=
        loopBody_fallThrough_inv argc argv opts i0 i1 w0 w2 hargc hbody
      obtain ⟨⟨cs, hcs, hlen, hpos⟩, hal⟩ := ih (i1 + 1) i w2 w hadd.symm
      refine ⟨⟨(k, c) :: cs, ?_, ?_, ?_⟩, ?_⟩
      · rw [hcs, hcalls]; simp
      · simp [hlen]
      · rw [hpos, hcur, List.countP_cons]
        simp only [hv]
        cases (d.m_argDescr.getArg argv[i0 + 1]?).isSome <;> simp <;> omega
      · rw [hal, happ]; simp; omega

/-- The cursor never passes `argc`, unless it started there or beyond. -/
theorem scanFrom_cursor_le {σ : Type} (argc : Nat) (argv : List CStr)
    (opts : List (OptDescr σ)) (hargc : argv.length = argc) (n : Nat) :
    ∀ (i0 i : Nat) (w0 w : World σ), scanFrom argc argv opts n i0 w0 = some (i, w) →
      i ≤ max i0 argc := by
  induction n with
  | zero =>
    intro i0 i w0 w h
    simp only [scanFrom, Option.some.injEq, Prod.mk.injEq] at h
    omega
  | succ n ih =>
    intro i0 i w0 w h
    by_cases hi : i0 < argc
    · cases he : loopBody argc argv opts i0 w0 with
      | none => simp [scanFrom, hi, he] at h
      | some e =>
        cases e with
        | ret b w1 => simp [scanFrom, hi, he] at h
        | fallThrough i1 w1 =>
          rw [scanFrom_succ argc argv opts n i0 i1 w0 w1 hi he] at h
          have hb := loopBody_fallThrough_bounds argc argv opts i0 i1 w0 w1 hargc he
          have := ih (i1 + 1) i w1 w h
          omega
    · simp [scanFrom, hi] at h

/-- A loop that returns has iterated up to a cursor where it ends: past the
last index with `true`, or at a token where the body returns `false`. -/
theorem loop_trace {σ : Type} (argc : Nat) (argv : List CStr) (opts : List (OptDescr σ))
    (hargc : argv.length = argc) (fuel : Nat) :
    ∀ (i0 : Nat) (w0 : World σ) (r : Outcome σ), loop argc argv opts fuel i0 w0 = some r →
      ∃ n i w, scanFrom argc argv opts n i0 w0 = some (i, w) ∧
        ((argc ≤ i ∧ r = ⟨true, w⟩) ∨
          (i < argc ∧ ∃ w1, loopBody argc argv opts i w = some (.ret false w1) ∧
            r = ⟨false, w1⟩)) := by
  induction fuel with
  | zero =>
    intro i0 w0 r h
    by_cases hi : i0 < argc
    · rw [loop_zero argc argv opts i0 w0 hi] at h; cases h
    · rw [loop_done argc argv opts 0 i0 w0 hi] at h
      cases h
      exact ⟨0, i0, w0, rfl, Or.inl ⟨Nat.le_of_not_lt hi, rfl⟩⟩
  | succ fuel ih =>
    intro i0 w0 r h
    by_cases hi : i0 < argc
    · cases he : loopBody argc argv opts i0 w0 with
      | none => rw [loop] at h; simp [hi, he] at h
      | some e =>
        cases e with
        | ret b w1 =>
          obtain ⟨hb, -⟩ := loopBody_ret argc argv opts i0 b w0 w1 hargc he
          subst hb
          rw [loop_ret argc argv opts fuel i0 false w0 w1 hi he] at h
          cases h
          exact ⟨0, i0, w0, rfl, Or.inr ⟨hi, w1, he, rfl⟩⟩
        | fallThrough i1 w1 =>
          rw [loop_fallThrough argc argv opts fuel i0 i1 w0 w1 hi he] at h
          obtain ⟨n, i, w, hn, hend⟩ := ih (i1 + 1) w1 r h
          exact ⟨n + 1, i, w, by rw [scanFrom_succ argc argv opts n i0 i1 w0 w1 hi he, hn],
            hend⟩
    · rw [loop_done argc argv opts (fuel + 1) i0 w0 hi] at h
      cases h
      exact ⟨0, i0, w0, rfl, Or.inl ⟨Nat.le_of_not_lt hi, rfl⟩⟩

/-- Whether `getArg` yields a value is the tabulated function of the shape
and of the form of the lookahead. -/
theorem getArg_isSome {σ : Type} (h : detail.ArgHandler σ) (arg : Option CStr) :
    (h.getArg arg).isSome = specConsumes h.shape arg.isSome (beginsWithDash arg) := by
  cases h with
  | flag m_u => rfl
  | optional m_u =>
    cases arg with
    | none => rfl
    | some s =>
      by_cases hd : charAt s 0 = '-'
      · simp [detail.ArgHandler.getArg, detail.ArgHandler.shape, specConsumes,
          beginsWithDash, hd]
      · simp [detail.ArgHandler.getArg, detail.ArgHandler.shape, specConsumes,
          beginsWithDash, hd]
  | mandatory m_u =>
    cases arg with
    | none => rfl
    | some s => rfl

/-- Handlers of the same shape have the same `getArg`, whatever their
callbacks and the state these act on. -/
theorem getArg_of_shape {σ τ : Type} (h1 : detail.ArgHandler σ) (h2 : detail.ArgHandler τ)
    (hshape : h1.shape = h2.shape) (arg : Option CStr) : h1.getArg arg = h2.getArg arg := by
  cases h1 <;> cases h2 <;> first | (cases arg <;> rfl) | cases hshape

/-- Every access `findOption` makes to its argument stays within the string
and its terminator. -/
theorem detail.findOptionChecked_eq {σ : Type} (arg : CStr) (opts : List (OptDescr σ)) :
    detail.findOptionChecked arg opts = some (detail.findOption arg opts) := by
  have h0 : readChar arg 0 = some (charAt arg 0) := by simp [readChar]
  unfold detail.findOptionChecked detail.findOption
  rw [h0]
  by_cases hd0 : charAt arg 0 = '-'
  · have hlen1 : 1 ≤ arg.length := by
      cases arg with
      | nil => exact absurd hd0 (by decide)
      | cons a t => simp
    have h1 : readChar arg 1 = some (charAt arg 1) := by simp [readChar, hlen1]
    simp only [hd0, if_true, h1]
    by_cases hd1 : charAt arg 1 = '-'
    · have hlen2 : 2 ≤ arg.length := by
        cases arg with
        | nil => exact absurd hd0 (by decide)
        | cons a t =>
          cases t with
          | nil => exact absurd hd1 (by simp [charAt])
          | cons b t => simp
      simp [hd1, suffixAt, hlen2]
    · simp [hd1, suffixAt, hlen1]
  · simp [hd0]

/-- The body of the loop at a cursor from 1 on sees only the strings from
index 1 on. -/
theorem loopBody_congr {σ : Type} (argc : Nat) (argv1 argv2 : List CStr)
    (opts : List (OptDescr σ)) (i : Nat) (w : World σ)
    (hagree : ∀ j, 1 ≤ j → argv1[j]? = argv2[j]?) (hi : 1 ≤ i) :
    loopBody argc argv1 opts i w = loopBody argc argv2 opts i w := by
  simp only [loopBody, hagree i hi, hagree (i + 1) (by omega)]

/-- The loop from a cursor from 1 on sees only the strings from index 1 on. -/
theorem loop_congr {σ : Type} (argc : Nat) (argv1 argv2 : List CStr)
    (opts : List (OptDescr σ)) (hagree : ∀ j, 1 ≤ j → argv1[j]? = argv2[j]?) (fuel : Nat) :
    ∀ (i : Nat) (w : World σ), 1 ≤ i →
      loop argc argv1 opts fuel i w = loop argc argv2 opts fuel i w := by
  induction fuel with
  | zero =>
    intro i w _
    by_cases hi : i < argc
    · rw [loop_zero argc argv1 opts i w hi, loop_zero argc argv2 opts i w hi]
    · rw [loop_done argc argv1 opts 0 i w hi, loop_done argc argv2 opts 0 i w hi]
  | succ fuel ih =>
    intro i w h1
    by_cases hi : i < argc
    · have hb := loopBody_congr argc argv1 argv2 opts i w hagree h1
      cases he : loopBody argc argv1 opts i w with
      | none =>
        rw [he] at hb
        rw [loop, loop]
        simp only [hi, if_true, he, ← hb]
      | some e =>
        rw [he] at hb
        cases e with
        | ret b w1 =>
          rw [loop_ret argc argv1 opts fuel i b w w1 hi he,
            loop_ret argc argv2 opts fuel i b w w1 hi hb.symm]
        | fallThrough i1 w1 =>
          rw [loop_fallThrough argc argv1 opts fuel i i1 w w1 hi he,
            loop_fallThrough argc argv2 opts fuel i i1 w w1 hi hb.symm]
          exact ih (i1 + 1) w1 (by omega)
    · rw [loop_done argc argv1 opts (fuel + 1) i w hi,
        loop_done argc argv2 opts (fuel + 1) i w hi]

/-- The indices read by the body at cursor `i` are `i` and, below `argc`
only, `i + 1`. -/
theorem loopBodyReads_mem {σ : Type} (argc : Nat) (argv : List CStr)
    (opts : List (OptDescr σ)) (i r : Nat) (h : r ∈ loopBodyReads argc argv opts i) :
    r = i ∨ (r = i + 1 ∧ i + 1 < argc) := by
  unfold loopBodyReads at h
  cases ho : argv[i]? with
  | none => simp only [ho, List.mem_singleton] at h; exact Or.inl h
  | some o =>
    cases hfind : detail.findOption o opts with
    | none => simp only [ho, hfind, List.mem_singleton] at h; exact Or.inl h
    | some kd =>
      by_cases hlt : i + 1 < argc
      · simp only [ho, hfind, hlt, if_true, List.mem_cons, List.mem_singleton,
          List.not_mem_nil, or_false] at h
        rcases h with h | h
        · exact Or.inl h
        · exact Or.inr ⟨h, hlt⟩
      · simp only [ho, hfind, hlt, if_false, List.mem_singleton] at h
        exact Or.inl h

/-- A running maximum is at least its start value and every value folded in. -/
theorem foldl_max_ge {α : Type} (f : α → Nat) (l : List α) :
    ∀ a : Nat, a ≤ l.foldl (fun m o => max m (f o)) a ∧
      ∀ o ∈ l, f o ≤ l.foldl (fun m o => max m (f o)) a := by
  induction l with
  | nil => intro a; simp
  | cons x xs ih =>
    intro a
    obtain ⟨h1, h2⟩ := ih (max a (f x))
    refine ⟨by simp only [List.foldl_cons]; omega, ?_⟩
    intro o ho
    simp only [List.foldl_cons]
    rcases List.mem_cons.mp ho with rfl | hmem
    · omega
    · exact h2 o hmem

/-- A running maximum is its start value or one of the values folded in. -/
theorem foldl_max_attained {α : Type} (f : α → Nat) (l : List α) :
    ∀ a : Nat, l.foldl (fun m o => max m (f o)) a = a ∨
      ∃ o ∈ l, f o = l.foldl (fun m o => max m (f o)) a := by
  induction l with
  | nil => intro a; exact Or.inl rfl
  | cons x xs ih =>
    intro a
    simp only [List.foldl_cons]
    rcases ih (max a (f x)) with h | ⟨o, ho, h⟩
    · by_cases hax : f x ≤ a
      · exact Or.inl (by rw [h]; omega)
      · exact Or.inr ⟨x, List.mem_cons_self x xs, by rw [h]; omega⟩
    · exact Or.inr ⟨o, List.mem_cons_of_mem x ho, h⟩

theorem detail.maxlen_ge {σ : Type} (opts : List (OptDescr σ)) (o : OptDescr σ)
    (ho : o ∈ opts) : o.namesSize ≤ detail.maxlen opts :=
  (foldl_max_ge (fun o : OptDescr σ => o.namesSize) opts 0).2 o ho

theorem detail.maxlen_attained {σ : Type} (opts : List (OptDescr σ)) (hne : opts ≠ []) :
    ∃ o ∈ opts, o.namesSize = detail.maxlen opts := by
  rcases foldl_max_attained (fun o : OptDescr σ => o.namesSize) opts 0 with h | h
  · cases opts with
    | nil => exact absurd rfl hne
    | cons x xs =>
      have hx := detail.maxlen_ge (x :: xs) x (List.mem_cons_self x xs)
      have h0 : detail.maxlen (x :: xs) = 0 := h
      exact ⟨x, List.mem_cons_self x xs, by omega⟩
  · exact h

/-- Sizes that leave room for the gutter are not reduced by `size_type`. -/
theorem namesSize_eq {σ : Type} (o : OptDescr σ)
    (hfit : o.m_shortArgs.length + o.m_longArg.length + 4 < sizeMod) :
    o.namesSize = o.m_shortArgs.length + o.m_longArg.length := by
  unfold OptDescr.namesSize
  exact Nat.mod_eq_of_lt (by omega)

theorem detail.maxlen_fit {σ : Type} (opts : List (OptDescr σ))
    (hfit : ∀ o ∈ opts, o.m_shortArgs.length + o.m_longArg.length + 4 < sizeMod) :
    detail.maxlen opts + 4 < sizeMod := by
  cases opts with
  | nil => simp [detail.maxlen, sizeMod]
  | cons x xs =>
    obtain ⟨o, ho, h⟩ := detail.maxlen_attained (x :: xs) (List.cons_ne_nil x xs)
    rw [← h, namesSize_eq o (hfit o ho)]
    exact hfit o ho

/-- The padding count in `size_type` is the mathematical `maxlen - l + 4` when
`l ≤ maxlen` and `maxlen + 4` fits. -/
theorem detail.spaceCount_eq (m l : Nat) (hle : l ≤ m) (hfit : m + 4 < sizeMod) :
    detail.spaceCount m l = m - l + 4 := by
  unfold detail.spaceCount
  have h1 : m + sizeMod - l = (m - l) + sizeMod := by omega
  have h2 : (m - l) % sizeMod = m - l := Nat.mod_eq_of_lt (by omega)
  have h3 : (m - l + 4) % sizeMod = m - l + 4 := Nat.mod_eq_of_lt (by omega)
  rw [h1, Nat.add_mod_right, h2, h3]

/-- A row is written behind what the stream holds. -/
theorem detail.usageRow_append {σ : Type} (m : Nat) (out : List Char) (o : OptDescr σ) :
    detail.usageRow m out o = out ++ detail.usageRow m [] o := by
  simp [detail.usageRow, List.append_assoc]

/-- The rows are written in table order behind what the stream holds. -/
theorem detail.foldl_usageRow {σ : Type} (m : Nat) (l : List (OptDescr σ)) :
    ∀ out : List Char,
      l.foldl (detail.usageRow m) out = out ++ (l.map (detail.usageRow m [])).flatten := by
  induction l with
  | nil => intro out; simp
  | cons x xs ih =>
    intro out
    rw [List.foldl_cons, ih, detail.usageRow_append]
    simp [List.append_assoc]

/-- The text `usage` writes does not depend on what the stream holds. -/
theorem usage_append {σ : Type} (name : CStr) (opts : List (OptDescr σ)) (out : List Char) :
    usage name opts out = out ++ usage name opts [] := by
  simp only [usage, detail.optsUsage, detail.foldl_usageRow]
  simp [List.append_assoc]

/-! ## The claims -/

/-- C1. Optional-argument lookahead: at a cursor `i` whose token resolves to an
optional-argument descriptor (table index `k`, callback `m_u`), (a) if the
following token is absent or begins with `-`, `apply` succeeds, the callback is
invoked once with the absent value and the scan continues at cursor `i + 1`;
(b) if the following token `p` is present and does not begin with `-`, `apply`
succeeds, the callback is invoked once with `p` and the scan continues at
cursor `i + 2`. -/
theorem optional_lookahead {σ : Type} (argc : Nat) (argv : List CStr)
    (opts : List (OptDescr σ)) (fuel i k : Nat) (w : World σ) (o : CStr) (d : OptDescr σ)
    (m_u : Option CStr → σ → σ)
    (hargc : argv.length = argc) (ho : argv[i]? = some o)
    (hfind : detail.findOption o opts = some (k, d))
    (hshape : d.m_argDescr.m_f = .optional m_u) :
    ((argv[i + 1]? = none ∨ ∃ p, argv[i + 1]? = some p ∧ charAt p 0 = '-') →
      (d.m_argDescr.apply (d.m_argDescr.getArg argv[i + 1]?) w.st).ok = true ∧
      scanFrom argc argv opts 1 i w =
        some (i + 1, ⟨m_u none w.st, w.applies ++ [(k, none)],
          w.calls ++ [(k, Call.withOptional none)]⟩) ∧
      loop argc argv opts (fuel + 1) i w =
        loop argc argv opts fuel (i + 1) ⟨m_u none w.st, w.applies ++ [(k, none)],
          w.calls ++ [(k, Call.withOptional none)]⟩) ∧
    (∀ p, argv[i + 1]? = some p → charAt p 0 ≠ '-' →
      (d.m_argDescr.apply (d.m_argDescr.getArg argv[i + 1]?) w.st).ok = true ∧
      scanFrom argc argv opts 1 i w =
        some (i + 2, ⟨m_u (some p) w.st, w.applies ++ [(k, some p)],
          w.calls ++ [(k, Call.withOptional (some p))]⟩) ∧
      loop argc argv opts (fuel + 1) i w =
        loop argc argv opts fuel (i + 2) ⟨m_u (some p) w.st, w.applies ++ [(k, some p)],
          w.calls ++ [(k, Call.withOptional (some p))]⟩) := by
  have hi : i < argc := index_lt_argc hargc ho
  have hbody := loopBody_found argc argv opts i k w o d hargc ho hfind
  constructor
  · intro hnext
    have hget : d.m_argDescr.getArg argv[i + 1]? = none := by
      rcases hnext with h | ⟨p, hp, hdash⟩
      · simp [ArgDescr.getArg, hshape, h, detail.ArgHandler.getArg]
      · simp [ArgDescr.getArg, hshape, hp, detail.ArgHandler.getArg, hdash]
    rw [hget] at hbody ⊢
    simp only [ArgDescr.apply, hshape, detail.ArgHandler.apply, if_true, Option.isSome_none,
      List.map_cons, List.map_nil] at hbody ⊢
    exact ⟨trivial, scanFrom_one_fallThrough argc argv opts i i w _ hi hbody,
      loop_fallThrough argc argv opts fuel i i w _ hi hbody⟩
  · intro p hp hdash
    have hget : d.m_argDescr.getArg argv[i + 1]? = some p := by
      simp [ArgDescr.getArg, hshape, hp, detail.ArgHandler.getArg, hdash]
    rw [hget] at hbody ⊢
    simp only [ArgDescr.apply, hshape, detail.ArgHandler.apply, if_true, Option.isSome_some,
      List.map_cons, List.map_nil] at hbody ⊢
    exact ⟨trivial, scanFrom_one_fallThrough argc argv opts i (i + 1) w _ hi hbody,
      loop_fallThrough argc argv opts fuel i (i + 1) w _ hi hbody⟩

/-- C1, at the test program: on `-i -a` the input callback gets the absent
value and the scan moves from cursor 1 to cursor 2, where `-a` is applied; on
`-i in.txt` the callback gets `in.txt` and the scan moves to cursor 3. -/
theorem optional_lookahead_witness :
    ((argvOf ["-i", "-a"]).length = 3 ∧
      (argvOf ["-i", "-a"])[1]? = some "-i".toList ∧
      detail.findOption "-i".toList mainOpts = some (1, inputOpt) ∧
      inputOpt.m_argDescr.m_f = .optional inputCallback) ∧
    scanFrom 3 (argvOf ["-i", "-a"]) mainOpts 1 1 mainWorld =
      some (2, ⟨mainInit, [(1, none)], [(1, Call.withOptional none)]⟩) ∧
    scanFrom 3 (argvOf ["-i", "in.txt"]) mainOpts 1 1 mainWorld =
      some (3, ⟨{ mainInit with inputFile := "in.txt".toList }, [(1, some "in.txt".toList)],
        [(1, Call.withOptional (some "in.txt".toList))]⟩) ∧
    (processOptions 3 (argvOf ["-i", "-a"]) mainOpts mainInit).map
        (fun r => (r.result, r.world.st, r.world.calls)) =
      some (true, { mainInit with doAll := true },
        [(1, Call.withOptional none), (2, Call.nullary)]) :=
  ⟨⟨rfl, rfl, rfl, rfl⟩,
    ((optional_lookahead 3 (argvOf ["-i", "-a"]) mainOpts 0 1 1 mainWorld "-i".toList inputOpt
      inputCallback rfl rfl rfl rfl).1 (Or.inr ⟨"-a".toList, rfl, rfl⟩)).2.1,
    ((optional_lookahead 3 (argvOf ["-i", "in.txt"]) mainOpts 0 1 1 mainWorld "-i".toList
      inputOpt inputCallback rfl rfl rfl rfl).2 "in.txt".toList rfl (by decide)).2.1,
    by decide⟩

/-- C2. Mandatory-argument options are greedy: at a cursor `i` whose token
resolves to a mandatory-argument descriptor (table index `k`, callback `m_u`)
and which has a following token `p`, whatever `p` begins with, `apply`
succeeds, the callback is invoked once with exactly `p`, and the scan
continues at cursor `i + 2`, so `p` is not looked up as an option. -/
theorem mandatory_greedy {σ : Type} (argc : Nat) (argv : List CStr)
    (opts : List (OptDescr σ)) (fuel i k : Nat) (w : World σ) (o p : CStr) (d : OptDescr σ)
    (m_u : CStr → σ → σ)
    (hargc : argv.length = argc) (ho : argv[i]? = some o)
    (hfind : detail.findOption o opts = some (k, d))
    (hshape : d.m_argDescr.m_f = .mandatory m_u)
    (hp : argv[i + 1]? = some p) :
    (d.m_argDescr.apply (d.m_argDescr.getArg argv[i + 1]?) w.st).ok = true ∧
    scanFrom argc argv opts 1 i w =
      some (i + 2, ⟨m_u p w.st, w.applies ++ [(k, some p)],
        w.calls ++ [(k, Call.withString p)]⟩) ∧
    loop argc argv opts (fuel + 1) i w =
      loop argc argv opts fuel (i + 2) ⟨m_u p w.st, w.applies ++ [(k, some p)],
        w.calls ++ [(k, Call.withString p)]⟩ := by
  have hi : i < argc := index_lt_argc hargc ho
  have hbody := loopBody_found argc argv opts i k w o d hargc ho hfind
  have hget : d.m_argDescr.getArg argv[i + 1]? = some p := by
    simp [ArgDescr.getArg, hshape, hp, detail.ArgHandler.getArg]
  rw [hget] at hbody ⊢
  simp only [ArgDescr.apply, hshape, detail.ArgHandler.apply, if_true, Option.isSome_some,
    List.map_cons, List.map_nil] at hbody ⊢
  exact ⟨trivial, scanFrom_one_fallThrough argc argv opts i (i + 1) w _ hi hbody,
    loop_fallThrough argc argv opts fuel i (i + 1) w _ hi hbody⟩

/-- C2, at the test program: on `-o -a` the output callback is invoked with
`-a`, the scan moves from cursor 1 to cursor 3, the parse succeeds and the
callback of `-a` is not invoked. -/
theorem mandatory_greedy_witness :
    ((argvOf ["-o", "-a"]).length = 3 ∧
      (argvOf ["-o", "-a"])[1]? = some "-o".toList ∧
      detail.findOption "-o".toList mainOpts = some (0, outputOpt) ∧
      outputOpt.m_argDescr.m_f = .mandatory outputCallback ∧
      (argvOf ["-o", "-a"])[1 + 1]? = some "-a".toList) ∧
    scanFrom 3 (argvOf ["-o", "-a"]) mainOpts 1 1 mainWorld =
      some (3, ⟨{ mainInit with outputFile := "-a".toList }, [(0, some "-a".toList)],
        [(0, Call.withString "-a".toList)]⟩) ∧
    (processOptions 3 (argvOf ["-o", "-a"]) mainOpts mainInit).map
        (fun r => (r.result, r.world.st, r.world.calls)) =
      some (true, { mainInit with outputFile := "-a".toList },
        [(0, Call.withString "-a".toList)]) :=
  ⟨⟨rfl, rfl, rfl, rfl, rfl⟩,
    (mandatory_greedy 3 (argvOf ["-o", "-a"]) mainOpts 0 1 0 mainWorld "-o".toList
      "-a".toList outputOpt outputCallback rfl rfl rfl rfl rfl).2.1,
    by decide⟩

/-- C4. Flag options never consume a value: at a cursor `i` whose token
resolves to a flag descriptor (table index `k`, callback `m_u`), whatever
follows, `getArg` yields no value, `apply` succeeds, the callback is invoked
once without argument, and the scan continues at cursor `i + 1`. -/
theorem flag_never_consumes {σ : Type} (argc : Nat) (argv : List CStr)
    (opts : List (OptDescr σ)) (fuel i k : Nat) (w : World σ) (o : CStr) (d : OptDescr σ)
    (m_u : σ → σ)
    (hargc : argv.length = argc) (ho : argv[i]? = some o)
    (hfind : detail.findOption o opts = some (k, d))
    (hshape : d.m_argDescr.m_f = .flag m_u) :
    d.m_argDescr.getArg argv[i + 1]? = none ∧
    (d.m_argDescr.apply (d.m_argDescr.getArg argv[i + 1]?) w.st).ok = true ∧
    scanFrom argc argv opts 1 i w =
      some (i + 1, ⟨m_u w.st, w.applies ++ [(k, none)], w.calls ++ [(k, Call.nullary)]⟩) ∧
    loop argc argv opts (fuel + 1) i w =
      loop argc argv opts fuel (i + 1) ⟨m_u w.st, w.applies ++ [(k, none)],
        w.calls ++ [(k, Call.nullary)]⟩ := by
  have hi : i < argc := index_lt_argc hargc ho
  have hbody := loopBody_found argc argv opts i k w o d hargc ho hfind
  have hget : d.m_argDescr.getArg argv[i + 1]? = none := by
    simp [ArgDescr.getArg, hshape, detail.ArgHandler.getArg]
  rw [hget] at hbody ⊢
  simp only [ArgDescr.apply, hshape, detail.ArgHandler.apply, if_true, Option.isSome_none,
    List.map_cons, List.map_nil] at hbody ⊢
  exact ⟨trivial, trivial, scanFrom_one_fallThrough argc argv opts i i w _ hi hbody,
    loop_fallThrough argc argv opts fuel i i w _ hi hbody⟩

/-- C4, at the test program: on `-a foo` the callback of `-a` is invoked
without argument, the scan moves from cursor 1 to cursor 2, and the parse then
fails on `foo` with no further invocation. -/
theorem flag_never_consumes_witness :
    ((argvOf ["-a", "foo"]).length = 3 ∧
      (argvOf ["-a", "foo"])[1]? = some "-a".toList ∧
      detail.findOption "-a".toList mainOpts = some (2, allOpt) ∧
      allOpt.m_argDescr.m_f = .flag allCallback) ∧
    scanFrom 3 (argvOf ["-a", "foo"]) mainOpts 1 1 mainWorld =
      some (2, ⟨{ mainInit with doAll := true }, [(2, none)], [(2, Call.nullary)]⟩) ∧
    (processOptions 3 (argvOf ["-a", "foo"]) mainOpts mainInit).map
        (fun r => (r.result, r.world.st, r.world.calls)) =
      some (false, { mainInit with doAll := true }, [(2, Call.nullary)]) :=
  ⟨⟨rfl, rfl, rfl, rfl⟩,
    (flag_never_consumes 3 (argvOf ["-a", "foo"]) mainOpts 0 1 2 mainWorld "-a".toList allOpt
      allCallback rfl rfl rfl rfl).2.2.1,
    by decide⟩

/-- C3, as stated, does not hold: on `-o` with a table holding only the
mandatory-argument descriptor of `main`, the parse returns false and the
callback is not invoked, but `apply` has been invoked, on descriptor 0 with the
absent value; it is `apply` that reports the missing value. -/
theorem missing_mandatory_apply_is_invoked :
    (processOptions 2 (argvOf ["-o"]) [outputOpt] mainInit).map
        (fun r => (r.result, r.world.applies, r.world.calls, r.world.st)) =
      some (false, [(0, none)], [], mainInit) :=
  rfl

/-- C3, amended. When the scan reaches the last token and it resolves to a
mandatory-argument descriptor (table index `k`), `getArg` yields no value,
`apply` is invoked with the absent value and returns false without invoking
the callback, and `processOptions` returns false: the captured state and the
callback log are those with which the token was reached. -/
theorem missing_mandatory_value {σ : Type} (argc : Nat) (argv : List CStr)
    (opts : List (OptDescr σ)) (st : σ) (i k : Nat) (w : World σ) (o : CStr)
    (d : OptDescr σ) (m_u : CStr → σ → σ)
    (hargc : argv.length = argc) (hreach : Reaches argc argv opts st i w)
    (ho : argv[i]? = some o) (hfind : detail.findOption o opts = some (k, d))
    (hshape : d.m_argDescr.m_f = .mandatory m_u) (hlast : i + 1 = argc) :
    d.m_argDescr.getArg argv[i + 1]? = none ∧
    d.m_argDescr.apply none w.st = ⟨false, w.st, []⟩ ∧
    processOptions argc argv opts st =
      some ⟨false, ⟨w.st, w.applies ++ [(k, none)], w.calls⟩⟩ := by
  have hi : i < argc := hreach.1
  have hpeek : argv[i + 1]? = none := List.getElem?_eq_none (by omega)
  have hbody := loopBody_found argc argv opts i k w o d hargc ho hfind
  have hget : d.m_argDescr.getArg argv[i + 1]? = none := by
    simp [ArgDescr.getArg, hshape, hpeek, detail.ArgHandler.getArg]
  have happly : d.m_argDescr.apply none w.st = ⟨false, w.st, []⟩ := by
    simp [ArgDescr.apply, hshape, detail.ArgHandler.apply]
  rw [hget, happly] at hbody
  simp only [Bool.false_eq_true, if_false, List.map_nil, List.append_nil] at hbody
  obtain ⟨f, hf⟩ := reaches_resume argc argv opts st i w hargc hreach
  exact ⟨hget, happly, by rw [hf, loop_ret argc argv opts f i false w _ hi hbody]⟩

/-- C3 amended, at the test program: on `-o` alone the parse returns false,
`apply` was invoked once with the absent value, no callback was invoked and
the output variable is unchanged. -/
theorem missing_mandatory_value_witness :
    ((argvOf ["-o"]).length = 2 ∧
      Reaches 2 (argvOf ["-o"]) mainOpts mainInit 1 mainWorld ∧
      (argvOf ["-o"])[1]? = some "-o".toList ∧
      detail.findOption "-o".toList mainOpts = some (0, outputOpt) ∧
      outputOpt.m_argDescr.m_f = .mandatory outputCallback ∧ 1 + 1 = 2) ∧
    processOptions 2 (argvOf ["-o"]) mainOpts mainInit =
      some ⟨false, ⟨mainInit, [(0, none)], []⟩⟩ :=
  ⟨⟨rfl, ⟨by decide, 0, rfl⟩, rfl, rfl, rfl, rfl⟩,
    (missing_mandatory_value 2 (argvOf ["-o"]) mainOpts mainInit 1 0 mainWorld "-o".toList
      outputOpt outputCallback rfl ⟨by decide, 0, rfl⟩ rfl rfl rfl rfl).2.2⟩

/-- C5. Lookup form and exact matching in `findOption`: a token `--name`
selects the descriptor at index `k` exactly when that descriptor's long token
equals `name` and no earlier long token does; a token `-rest` whose second
character is not `-` selects the descriptor at index `k` exactly when that
descriptor's short token equals the whole of `rest` and no earlier short token
does. Some descriptor is selected exactly when some descriptor carries the
named token in that column. The index selected by `--name` is the same in any
table with the same long tokens, and the index selected by `-rest` the same in
any table with the same short tokens. -/
theorem findOption_exact_match {σ : Type} (opts : List (OptDescr σ)) :
    (∀ (name : CStr) (k : Nat) (d : OptDescr σ),
      detail.findOption ('-' :: '-' :: name) opts = some (k, d) ↔
        opts[k]? = some d ∧ d.m_longArg = name ∧
          ∀ j e, j < k → opts[j]? = some e → e.m_longArg ≠ name) ∧
    (∀ (name : CStr),
      (∃ k d, detail.findOption ('-' :: '-' :: name) opts = some (k, d)) ↔
        ∃ d ∈ opts, d.m_longArg = name) ∧
    (∀ (rest : CStr) (k : Nat) (d : OptDescr σ), charAt rest 0 ≠ '-' →
      (detail.findOption ('-' :: rest) opts = some (k, d) ↔
        opts[k]? = some d ∧ d.m_shortArgs = rest ∧
          ∀ j e, j < k → opts[j]? = some e → e.m_shortArgs ≠ rest)) ∧
    (∀ (rest : CStr), charAt rest 0 ≠ '-' →
      ((∃ k d, detail.findOption ('-' :: rest) opts = some (k, d)) ↔
        ∃ d ∈ opts, d.m_shortArgs = rest)) ∧
    (∀ (opts1 : List (OptDescr σ)) (name : CStr),
      opts.map OptDescr.m_longArg = opts1.map OptDescr.m_longArg →
      (detail.findOption ('-' :: '-' :: name) opts).map Prod.fst =
        (detail.findOption ('-' :: '-' :: name) opts1).map Prod.fst) ∧
    (∀ (opts1 : List (OptDescr σ)) (rest : CStr), charAt rest 0 ≠ '-' →
      opts.map OptDescr.m_shortArgs = opts1.map OptDescr.m_shortArgs →
      (detail.findOption ('-' :: rest) opts).map Prod.fst =
        (detail.findOption ('-' :: rest) opts1).map Prod.fst) := by
  have hex : ∀ (p : OptDescr σ → Bool),
      (∃ k d, detail.find_if p opts = some (k, d)) ↔ ∃ d ∈ opts, p d = true := by
    intro p
    constructor
    · rintro ⟨k, d, h⟩
      obtain ⟨h1, h2, -⟩ := (detail.find_if_some_iff p opts k d).mp h
      exact ⟨d, List.getElem?_mem h1, h2⟩
    · rintro ⟨d, hd, hp⟩
      cases hf : detail.find_if p opts with
      | none =>
        have := (detail.find_if_none_iff p opts).mp hf d hd
        rw [hp] at this; cases this
      | some kd => exact ⟨kd.1, kd.2, rfl⟩
  have hcol : ∀ (col : OptDescr σ → CStr) (tok : CStr) (l l1 : List (OptDescr σ)),
      l.map col = l1.map col →
      l.map (fun o => decide (col o = tok)) = l1.map (fun o => decide (col o = tok)) := by
    intro col tok l l1 h
    have h2 := congrArg (List.map (fun x : CStr => decide (x = tok))) h
    simpa [List.map_map, Function.comp_def] using h2
  refine ⟨?_, ?_, ?_, ?_, ?_, ?_⟩
  rotate_left 4
  · intro opts1 name h
    rw [detail.findOption_long, detail.findOption_long]
    exact detail.find_if_index_congr _ _ opts opts1 (hcol OptDescr.m_longArg name opts opts1 h)
  · intro opts1 rest hrest h
    rw [detail.findOption_short rest opts hrest, detail.findOption_short rest opts1 hrest]
    exact detail.find_if_index_congr _ _ opts opts1 (hcol OptDescr.m_shortArgs rest opts opts1 h)
  · intro name k d
    rw [detail.findOption_long, detail.find_if_some_iff]
    simp
  · intro name
    rw [detail.findOption_long, hex]
    simp
  · intro rest k d hrest
    rw [detail.findOption_short rest opts hrest, detail.find_if_some_iff]
    simp
  · intro rest hrest
    rw [detail.findOption_short rest opts hrest, hex]
    simp

/-- C5, at the table of `main`: `--all` selects the flag descriptor at index
2 by its long token, while `-ab`, `--al`, `--a` and `-all` select nothing. -/
theorem findOption_exact_match_witness :
    charAt "ab".toList 0 ≠ '-' ∧
    detail.findOption "--all".toList mainOpts = some (2, allOpt) ∧
    ¬ (∃ k d, detail.findOption "-ab".toList mainOpts = some (k, d)) ∧
    (detail.findOption "--al".toList mainOpts).isNone = true ∧
    (detail.findOption "--a".toList mainOpts).isNone = true ∧
    (detail.findOption "-all".toList mainOpts).isNone = true :=
  ⟨by decide,
    ((findOption_exact_match mainOpts).1 "all".toList 2 allOpt).mpr ⟨rfl, rfl,
      fun j e hj he => by
        interval_cases j <;>
          (simp only [mainOpts, List.getElem?_cons_zero, List.getElem?_cons_succ,
            Option.some.injEq] at he
           subst he
           decide)⟩,
    fun h => by
      have hmem := ((findOption_exact_match mainOpts).2.2.2.1 "ab".toList (by decide)).mp h
      revert hmem
      decide,
    by decide, by decide, by decide⟩

/-- C6. First match wins: when the token at cursor `i` names the token `tok`
of a column (`--tok` for the long tokens, `-tok` for the short ones) and the
descriptors at indices `j1 < j2` both carry `tok` in that column, `findOption`
returns the descriptor `d` at the least index `k` carrying it (so `k ≤ j1`),
the loop body calls `getArg` and `apply` of `d` only, its cursor and result
being decided by them, and no callback invocation it logs belongs to `j2`. -/
theorem first_match_wins {σ : Type} (argc : Nat) (argv : List CStr)
    (opts : List (OptDescr σ)) (i j1 j2 : Nat) (w : World σ) (o tok : CStr)
    (e1 e2 : OptDescr σ) (col : OptDescr σ → CStr)
    (hargc : argv.length = argc) (ho : argv[i]? = some o)
    (hform : (o = '-' :: '-' :: tok ∧ col = OptDescr.m_longArg) ∨
      (o = '-' :: tok ∧ charAt tok 0 ≠ '-' ∧ col = OptDescr.m_shortArgs))
    (h1 : opts[j1]? = some e1) (hc1 : col e1 = tok)
    (h2 : opts[j2]? = some e2) (hc2 : col e2 = tok) (hlt : j1 < j2) :
    ∃ k d, detail.findOption o opts = some (k, d) ∧ opts[k]? = some d ∧ col d = tok ∧
      k ≤ j1 ∧ (∀ j e, j < k → opts[j]? = some e → col e ≠ tok) ∧
      loopBody argc argv opts i w =
        (if (d.m_argDescr.apply (d.m_argDescr.getArg argv[i + 1]?) w.st).ok then
          some (.fallThrough (if (d.m_argDescr.getArg argv[i + 1]?).isSome then i + 1 else i)
            ⟨(d.m_argDescr.apply (d.m_argDescr.getArg argv[i + 1]?) w.st).st,
              w.applies ++ [(k, d.m_argDescr.getArg argv[i + 1]?)],
              w.calls ++ (d.m_argDescr.apply (d.m_argDescr.getArg argv[i + 1]?) w.st).calls.map
                (fun c => (k, c))⟩)
        else
          some (.ret false
            ⟨(d.m_argDescr.apply (d.m_argDescr.getArg argv[i + 1]?) w.st).st,
              w.applies ++ [(k, d.m_argDescr.getArg argv[i + 1]?)],
              w.calls ++ (d.m_argDescr.apply (d.m_argDescr.getArg argv[i + 1]?) w.st).calls.map
                (fun c => (k, c))⟩)) ∧
      ∀ e, loopBody argc argv opts i w = some e →
        ∃ cs : List Call, e.world.calls = w.calls ++ cs.map (fun c => (k, c)) ∧
          ∀ c, (j2, c) ∉ cs.map (fun c => (k, c)) := by
  have _hlater : opts[j2]? = some e2 ∧ col e2 = tok := ⟨h2, hc2⟩
  have hsel : ∀ (p : OptDescr σ → Bool), (∀ e, p e = true ↔ col e = tok) →
      ∃ k d, detail.find_if p opts = some (k, d) ∧ opts[k]? = some d ∧ col d = tok ∧
        k ≤ j1 ∧ ∀ j e, j < k → opts[j]? = some e → col e ≠ tok := by
    intro p hp
    cases hf : detail.find_if p opts with
    | none =>
      have := (detail.find_if_none_iff p opts).mp hf e1 (List.getElem?_mem h1)
      rw [(hp e1).mpr hc1] at this; cases this
    | some kd =>
      obtain ⟨k, d⟩ := kd
      obtain ⟨hk, hd, hmin⟩ := (detail.find_if_some_iff p opts k d).mp hf
      refine ⟨k, d, rfl, hk, (hp d).mp hd, ?_, ?_⟩
      · by_contra hgt
        have := hmin j1 e1 (by omega) h1
        rw [(hp e1).mpr hc1] at this; cases this
      · intro j e hj he hcol
        have := hmin j e hj he
        rw [(hp e).mpr hcol] at this; cases this
  have hfound : ∃ k d, detail.findOption o opts = some (k, d) ∧ opts[k]? = some d ∧
      col d = tok ∧ k ≤ j1 ∧ ∀ j e, j < k → opts[j]? = some e → col e ≠ tok := by
    rcases hform with ⟨rfl, rfl⟩ | ⟨rfl, hdash, rfl⟩
    · rw [detail.findOption_long]
      exact hsel _ (fun e => by simp)
    · rw [detail.findOption_short tok opts hdash]
      exact hsel _ (fun e => by simp)
  obtain ⟨k, d, hfind, hk, hcol, hle, hmin⟩ := hfound
  have hbody := loopBody_found argc argv opts i k w o d hargc ho hfind
  refine ⟨k, d, hfind, hk, hcol, hle, hmin, hbody, ?_⟩
  intro e he
  refine ⟨(d.m_argDescr.apply (d.m_argDescr.getArg argv[i + 1]?) w.st).calls, ?_, ?_⟩
  · rw [hbody] at he
    split at he <;> (cases he; rfl)
  · intro c hc
    obtain ⟨c1, -, hpair⟩ := List.mem_map.mp hc
    have : k = j2 := congrArg Prod.fst hpair
    omega

/-- C6, at a table where a later descriptor reuses the tokens of `-a`,
`--all`: on `-a x` the flag descriptor at index 2 is the one selected, it
consumes nothing, and the only invocation logged is its own. -/
theorem first_match_wins_witness :
    ((argvOf ["-a", "x"]).length = 3 ∧ (argvOf ["-a", "x"])[1]? = some "-a".toList ∧
      ("-a".toList = '-' :: "a".toList ∧ charAt "a".toList 0 ≠ '-') ∧
      collidingOpts[2]? = some allOpt ∧ allOpt.m_shortArgs = "a".toList ∧
      collidingOpts[4]? = some shadowedOpt ∧ shadowedOpt.m_shortArgs = "a".toList ∧ 2 < 4) ∧
    (∃ k d, detail.findOption "-a".toList collidingOpts = some (k, d) ∧ k ≤ 2) ∧
    detail.findOption "-a".toList collidingOpts = some (2, allOpt) ∧
    loopBody 3 (argvOf ["-a", "x"]) collidingOpts 1 mainWorld =
      some (.fallThrough 1 ⟨{ mainInit with doAll := true }, [(2, none)],
        [(2, Call.nullary)]⟩) :=
  ⟨⟨rfl, rfl, ⟨rfl, by decide⟩, rfl, rfl, rfl, rfl, by decide⟩,
    (first_match_wins 3 (argvOf ["-a", "x"]) collidingOpts 1 2 4 mainWorld "-a".toList
      "a".toList allOpt shadowedOpt OptDescr.m_shortArgs rfl rfl
      (Or.inr ⟨rfl, by decide, rfl⟩) rfl rfl rfl rfl (by decide)).imp
      (fun _ h => h.imp (fun _ h => ⟨h.1, h.2.2.2.1⟩)),
    rfl, rfl⟩

/-- C7. A non-option or unknown token aborts the parse: when the scan reaches
a token that does not begin with `-`, or a token `--name` whose `name` is no
descriptor's long token, or a token `-rest` (second character not `-`) whose
`rest` is no descriptor's short token, `findOption` finds nothing and
`processOptions` returns false with exactly the state with which the token was
reached: nothing is applied or invoked for this token or any later one. -/
theorem unknown_token_aborts {σ : Type} (argc : Nat) (argv : List CStr)
    (opts : List (OptDescr σ)) (st : σ) (i : Nat) (w : World σ) (o : CStr)
    (hargc : argv.length = argc) (hreach : Reaches argc argv opts st i w)
    (ho : argv[i]? = some o)
    (hbad : charAt o 0 ≠ '-' ∨
      (∃ name, o = '-' :: '-' :: name ∧ ∀ d ∈ opts, d.m_longArg ≠ name) ∨
      (∃ rest, o = '-' :: rest ∧ charAt rest 0 ≠ '-' ∧ ∀ d ∈ opts, d.m_shortArgs ≠ rest)) :
    detail.findOption o opts = none ∧
    loopBody argc argv opts i w = some (.ret false w) ∧
    processOptions argc argv opts st = some ⟨false, w⟩ := by
  have hnone : detail.findOption o opts = none := by
    rcases hbad with h | ⟨name, rfl, h⟩ | ⟨rest, rfl, hdash, h⟩
    · exact detail.findOption_no_dash o opts h
    · rw [detail.findOption_long, detail.find_if_none_iff]
      intro e he
      simpa using h e he
    · rw [detail.findOption_short rest opts hdash, detail.find_if_none_iff]
      intro e he
      simpa using h e he
  have hbody := loopBody_not_found argc argv opts i w o ho hnone
  obtain ⟨f, hf⟩ := reaches_resume argc argv opts st i w hargc hreach
  exact ⟨hnone, hbody, by rw [hf, loop_ret argc argv opts f i false w w hreach.1 hbody]⟩

/-- C7, at a table holding only the flag descriptor of `main`: on `-x` the
parse returns false and nothing is applied or invoked. -/
theorem unknown_token_aborts_witness :
    ((argvOf ["-x"]).length = 2 ∧ Reaches 2 (argvOf ["-x"]) [allOpt] mainInit 1 mainWorld ∧
      (argvOf ["-x"])[1]? = some "-x".toList ∧
      "-x".toList = '-' :: "x".toList ∧ charAt "x".toList 0 ≠ '-' ∧
      ∀ d ∈ [allOpt], d.m_shortArgs ≠ "x".toList) ∧
    processOptions 2 (argvOf ["-x"]) [allOpt] mainInit = some ⟨false, ⟨mainInit, [], []⟩⟩ :=
  ⟨⟨rfl, ⟨by decide, 0, rfl⟩, rfl, rfl, by decide, by simp [allOpt]⟩,
    (unknown_token_aborts 2 (argvOf ["-x"]) [allOpt] mainInit 1 mainWorld "-x".toList rfl
      ⟨by decide, 0, rfl⟩ rfl
      (Or.inr (Or.inr ⟨"x".toList, rfl, by decide, by simp [allOpt]⟩))).2.2⟩

/-- C8. The error taxonomy is complete: `processOptions` returns, and it
returns false exactly when its scan reaches a token that (i) does not begin
with `-`, or (ii) `findOption` resolves to no descriptor, or (iii) resolves to
a mandatory-argument descriptor while being the last token. It returns true
exactly when the cursor has moved past the last index, with the state it had
then; for a vector without tokens it returns true with nothing applied. -/
theorem error_taxonomy_complete {σ : Type} (argc : Nat) (argv : List CStr)
    (opts : List (OptDescr σ)) (st : σ) (hargc : argv.length = argc) :
    ∃ r, processOptions argc argv opts st = some r ∧
      (r.result = false ↔
        ∃ i w o, Reaches argc argv opts st i w ∧ argv[i]? = some o ∧
          (charAt o 0 ≠ '-' ∨ detail.findOption o opts = none ∨
            ∃ k d m_u, detail.findOption o opts = some (k, d) ∧
              d.m_argDescr.m_f = .mandatory m_u ∧ i + 1 = argc)) ∧
      (r.result = true ↔
        ∃ n i, scanFrom argc argv opts n 1 ⟨st, [], []⟩ = some (i, r.world) ∧ argc ≤ i) ∧
      (argc ≤ 1 → r = ⟨true, ⟨st, [], []⟩⟩) := by
  obtain ⟨r, hr⟩ := loop_total argc argv opts hargc argc 1 ⟨st, [], []⟩ (by omega)
  have hrun : processOptions argc argv opts st = some r := hr
  refine ⟨r, hrun, ?_, ?_, ?_⟩
  · constructor
    · intro hfalse
      obtain ⟨n, i, w, o, hn, hlt, ho, hcond⟩ :=
        loop_false_reaches argc argv opts hargc argc 1 _ r hr hfalse
      exact ⟨i, w, o, ⟨hlt, n, hn⟩, ho, Or.inr hcond⟩
    · rintro ⟨i, w, o, hreach, ho, hcond⟩
      obtain ⟨f, hf⟩ := reaches_resume argc argv opts st i w hargc hreach
      obtain ⟨w1, hbody⟩ := loopBody_fails argc argv opts i w o hargc ho hcond
      rw [hf, loop_ret argc argv opts f i false w w1 hreach.1 hbody] at hrun
      cases hrun
      rfl
  · constructor
    · intro htrue
      exact loop_true_exhausts argc argv opts hargc argc 1 _ r hr htrue
    · rintro ⟨n, i, hn, hle⟩
      have h1 := scanFrom_loop argc argv opts argc n 1 i _ r.world hn
      rw [loop_done argc argv opts argc i r.world (by omega)] at h1
      have h2 := loop_add_fuel argc argv opts argc n 1 _ r hr
      rw [Nat.add_comm, h1] at h2
      exact (congrArg Outcome.result (Option.some.inj h2)).symm
  · intro hle
    rw [loop_done argc argv opts argc 1 _ (by omega)] at hr
    cases hr
    rfl

/-- C8, at the test program: `-o out.txt -a` is parsed to the end and gives
true, with the output callback invoked on `out.txt` and then the callback of
`-a`; the vector without tokens gives true. -/
theorem error_taxonomy_complete_witness :
    (argvOf ["-o", "out.txt", "-a"]).length = 4 ∧
    (∃ r, processOptions 4 (argvOf ["-o", "out.txt", "-a"]) mainOpts mainInit = some r) ∧
    (processOptions 4 (argvOf ["-o", "out.txt", "-a"]) mainOpts mainInit).map
        (fun r => (r.result, r.world.st, r.world.calls)) =
      some (true, { mainInit with outputFile := "out.txt".toList, doAll := true },
        [(0, Call.withString "out.txt".toList), (2, Call.nullary)]) ∧
    processOptions 1 (argvOf []) mainOpts mainInit = some ⟨true, mainWorld⟩ :=
  ⟨rfl,
    (error_taxonomy_complete 4 (argvOf ["-o", "out.txt", "-a"]) mainOpts mainInit rfl).imp
      (fun _ h => h.1),
    by decide, rfl⟩

/-- C9. No rollback, and failure stops at a clean boundary: when
`processOptions` returns false on a vector, there is an index `m` with
`1 ≤ m < argc` such that on the first `m` strings of the vector (the program
name and a proper initial segment of the tokens) `processOptions` returns true
with the same sequence of callback invocations, indices and values included,
and the same captured state. -/
theorem failure_keeps_applied_effects {σ : Type} (argc : Nat) (argv : List CStr)
    (opts : List (OptDescr σ)) (st : σ) (r : Outcome σ)
    (hargc : argv.length = argc) (hrun : processOptions argc argv opts st = some r)
    (hfalse : r.result = false) :
    ∃ m r1, 1 ≤ m ∧ m < argc ∧ processOptions m (argv.take m) opts st = some r1 ∧
      r1.result = true ∧ r1.world.calls = r.world.calls ∧ r1.world.st = r.world.st := by
  obtain ⟨m, r1, hle, hlt, hloop, hres, hcalls, hst⟩ :=
    loop_false_cut argc argv opts hargc argc 1 _ r hrun hfalse
  have hlen : (argv.take m).length = m := by
    rw [List.length_take, hargc]; exact Nat.min_eq_left (Nat.le_of_lt hlt)
  obtain ⟨r2, hr2⟩ := loop_total m (argv.take m) opts hlen m 1 ⟨st, [], []⟩ (by omega)
  have hmore := loop_add_fuel m (argv.take m) opts m (argc - m) 1 _ r2 hr2
  rw [show m + (argc - m) = argc by omega, hloop] at hmore
  cases hmore
  exact ⟨m, r1, hle, hlt, hr2, hres, hcalls, hst⟩

/-- C9, at the test program: `-a foo` fails at `foo` after the callback of
`-a` was invoked; the vector cut before `foo` is parsed with true and the
same invocation and state. -/
theorem failure_keeps_applied_effects_witness :
    ((argvOf ["-a", "foo"]).length = 3 ∧
      processOptions 3 (argvOf ["-a", "foo"]) mainOpts mainInit =
        some ⟨false, ⟨{ mainInit with doAll := true }, [(2, none)], [(2, Call.nullary)]⟩⟩) ∧
    (∃ m r1, 1 ≤ m ∧ m < 3 ∧
      processOptions m ((argvOf ["-a", "foo"]).take m) mainOpts mainInit = some r1 ∧
      r1.result = true ∧ r1.world.calls = [(2, Call.nullary)] ∧
      r1.world.st = { mainInit with doAll := true }) ∧
    processOptions 2 ((argvOf ["-a", "foo"]).take 2) mainOpts mainInit =
      some ⟨true, ⟨{ mainInit with doAll := true }, [(2, none)], [(2, Call.nullary)]⟩⟩ :=
  ⟨⟨rfl, rfl⟩,
    failure_keeps_applied_effects 3 (argvOf ["-a", "foo"]) mainOpts mainInit
      ⟨false, ⟨{ mainInit with doAll := true }, [(2, none)], [(2, Call.nullary)]⟩⟩
      rfl rfl rfl,
    rfl⟩

/-- C10. Handler-level contract of `ArgDescr::apply`: it returns false exactly
when the handler is the mandatory one and the value is absent, and then
invokes no callback and changes nothing; otherwise it returns true after
exactly one invocation: the flag callback without argument whatever the value,
the optional callback with the value as given, present or absent, and the
mandatory callback with the present value. -/
theorem apply_contract {σ : Type} (a : ArgDescr σ) (s : Option CStr) (st : σ) :
    ((a.apply s st).ok = false ↔ (∃ m_u, a.m_f = .mandatory m_u) ∧ s = none) ∧
    ((a.apply s st).ok = false → (a.apply s st).calls = [] ∧ (a.apply s st).st = st) ∧
    ((a.apply s st).ok = true → (a.apply s st).calls.length = 1) ∧
    (∀ m_u, a.m_f = .flag m_u → a.apply s st = ⟨true, m_u st, [Call.nullary]⟩) ∧
    (∀ m_u, a.m_f = .optional m_u →
      a.apply s st = ⟨true, m_u s st, [Call.withOptional s]⟩) ∧
    (∀ m_u v, a.m_f = .mandatory m_u → s = some v →
      a.apply s st = ⟨true, m_u v st, [Call.withString v]⟩) := by
  refine ⟨⟨fun h => (apply_not_ok a s st h).2, ?_⟩, ?_, ?_, ?_, ?_, ?_⟩
  · rintro ⟨⟨m_u, hm⟩, rfl⟩
    simp [ArgDescr.apply, hm, detail.ArgHandler.apply]
  · intro h
    rw [(apply_not_ok a s st h).1]
    exact ⟨rfl, rfl⟩
  · intro h
    unfold ArgDescr.apply at h ⊢
    cases hf : a.m_f with
    | flag m_u => simp [detail.ArgHandler.apply]
    | optional m_u => simp [detail.ArgHandler.apply]
    | mandatory m_u =>
      cases s with
      | none => rw [hf] at h; simp [detail.ArgHandler.apply] at h
      | some v => simp [detail.ArgHandler.apply]
  · intro m_u hm
    simp [ArgDescr.apply, hm, detail.ArgHandler.apply]
  · intro m_u hm
    simp [ArgDescr.apply, hm, detail.ArgHandler.apply]
  · rintro m_u v hm rfl
    simp [ArgDescr.apply, hm, detail.ArgHandler.apply]

/-- C10, at the handlers of `main`: the mandatory handler refuses the absent
value without touching the state and passes a present one on; the flag handler
ignores a supplied value; the optional handler passes the absent value on. -/
theorem apply_contract_witness :
    outputOpt.m_argDescr.apply none mainInit = ⟨false, mainInit, []⟩ ∧
    (outputOpt.m_argDescr.apply none mainInit).ok = false ∧
    outputOpt.m_argDescr.apply (some "x".toList) mainInit =
      ⟨true, { mainInit with outputFile := "x".toList }, [Call.withString "x".toList]⟩ ∧
    allOpt.m_argDescr.apply (some "x".toList) mainInit =
      ⟨true, { mainInit with doAll := true }, [Call.nullary]⟩ ∧
    inputOpt.m_argDescr.apply none mainInit =
      ⟨true, mainInit, [Call.withOptional none]⟩ :=
  ⟨rfl,
    (apply_contract outputOpt.m_argDescr none mainInit).1.mpr ⟨⟨outputCallback, rfl⟩, rfl⟩,
    (apply_contract outputOpt.m_argDescr (some "x".toList) mainInit).2.2.2.2.2
      outputCallback "x".toList rfl rfl,
    (apply_contract allOpt.m_argDescr (some "x".toList) mainInit).2.2.2.1 allCallback rfl,
    (apply_contract inputOpt.m_argDescr none mainInit).2.2.2.2.1 inputCallback rfl⟩



/-- C11. One invocation per applied option token, in scan order: the run
returns, and it stops after some number `N` of completed iterations, at a
cursor past the last index (result true) or at a token where the body returns
false. Its callback log has exactly `N` entries and its `apply` log `N` or
`N + 1`; for each `j < N` the `j`-th entry is the single invocation made by the
descriptor found at the cursor of iteration `j`, and the cursors increase with
`j`. On success the number of invocations plus the number of invocations that
carried a value is the number `argc - 1` of tokens. -/
theorem calls_follow_scan {σ : Type} (argc : Nat) (argv : List CStr)
    (opts : List (OptDescr σ)) (st : σ) (hargc : argv.length = argc) :
    ∃ r N iN wN, processOptions argc argv opts st = some r ∧
      scanFrom argc argv opts N 1 ⟨st, [], []⟩ = some (iN, wN) ∧
      ((argc ≤ iN ∧ r = ⟨true, wN⟩) ∨
        (iN < argc ∧ ∃ w1, loopBody argc argv opts iN wN = some (.ret false w1) ∧
          r = ⟨false, w1⟩)) ∧
      r.world.calls = wN.calls ∧ r.world.calls.length = N ∧
      (r.world.applies.length = N ∨ r.world.applies.length = N + 1) ∧
      (∀ j, j < N → ∃ i w i1 w1 o k d c,
        scanFrom argc argv opts j 1 ⟨st, [], []⟩ = some (i, w) ∧
        scanFrom argc argv opts (j + 1) 1 ⟨st, [], []⟩ = some (i1, w1) ∧ i < i1 ∧
        argv[i]? = some o ∧ detail.findOption o opts = some (k, d) ∧
        (d.m_argDescr.apply (d.m_argDescr.getArg argv[i + 1]?) w.st).ok = true ∧
        (d.m_argDescr.apply (d.m_argDescr.getArg argv[i + 1]?) w.st).calls = [c] ∧
        r.world.calls[j]? = some (k, c)) ∧
      (r.result = true →
        r.world.calls.length + r.world.calls.countP (fun c => c.2.hasValue) = argc - 1) := by
  obtain ⟨r, hr⟩ := loop_total argc argv opts hargc argc 1 ⟨st, [], []⟩ (by omega)
  obtain ⟨N, iN, wN, hN, hend⟩ := loop_trace argc argv opts hargc argc 1 _ r hr
  obtain ⟨⟨cs, hcs, hlen, hpos⟩, hal⟩ := scanFrom_logs argc argv opts hargc N 1 iN _ wN hN
  simp only [List.nil_append, List.length_nil, Nat.zero_add] at hcs hal
  have hle := scanFrom_cursor_le argc argv opts hargc N 1 iN _ wN hN
  have hcalls : r.world.calls = wN.calls := by
    rcases hend with ⟨-, rfl⟩ | ⟨-, w1, hbody, rfl⟩
    · rfl
    · exact (loopBody_ret argc argv opts iN false wN w1 hargc hbody).2.2.1
  refine ⟨r, N, iN, wN, hr, hN, hend, hcalls, by rw [hcalls, hcs, hlen], ?_, ?_, ?_⟩
  · rcases hend with ⟨-, rfl⟩ | ⟨-, w1, hbody, rfl⟩
    · exact Or.inl hal
    · rcases loopBody_ret_applies argc argv opts iN false wN w1 hargc hbody with h | ⟨k, h⟩
      · exact Or.inl (by rw [h, hal])
      · exact Or.inr (by simp [h, hal])
  · intro j hj
    have hsplit : N = j + (1 + (N - j - 1)) := by omega
    have h1 := scanFrom_add argc argv opts (1 + (N - j - 1)) j 1 ⟨st, [], []⟩
    rw [← hsplit, hN] at h1
    cases hj1 : scanFrom argc argv opts j 1 ⟨st, [], []⟩ with
    | none => rw [hj1] at h1; cases h1
    | some iw =>
      obtain ⟨i, w⟩ := iw
      rw [hj1] at h1
      have h1a : scanFrom argc argv opts (1 + (N - j - 1)) i w = some (iN, wN) := h1.symm
      have h2 := scanFrom_add argc argv opts (N - j - 1) 1 i w
      rw [h1a] at h2
      cases hstep : scanFrom argc argv opts 1 i w with
      | none => rw [hstep] at h2; cases h2
      | some iw1 =>
        obtain ⟨i1, w1⟩ := iw1
        rw [hstep] at h2
        have h2a : scanFrom argc argv opts (N - j - 1) i1 w1 = some (iN, wN) := h2.symm
        have h3 : scanFrom argc argv opts (j + 1) 1 ⟨st, [], []⟩ = some (i1, w1) := by
          rw [scanFrom_add argc argv opts 1 j 1 _, hj1]
          exact hstep
        obtain ⟨-, i0, hi1, hbody⟩ := scanFrom_one_inv argc argv opts i i1 w w1 hstep
        have hb := loopBody_fallThrough_bounds argc argv opts i i0 w w1 hargc hbody
        obtain ⟨o, k, d, c, ho, hfind, hok, hc, -, -, -, -, hw1⟩ :=
          loopBody_fallThrough_inv argc argv opts i i0 w w1 hargc hbody
        obtain ⟨⟨csj, hcsj, hlenj, -⟩, -⟩ := scanFrom_logs argc argv opts hargc j 1 i _ w hj1
        obtain ⟨⟨csr, hcsr, -, -⟩, -⟩ :=
          scanFrom_logs argc argv opts hargc (N - j - 1) i1 iN w1 wN h2a
        simp only [List.nil_append] at hcsj
        refine ⟨i, w, i1, w1, o, k, d, c, rfl, h3, by omega, ho, hfind, hok, hc, ?_⟩
        rw [hcalls, hcsr, hw1, hcsj, List.append_assoc,
          List.getElem?_append_right (by omega), hlenj]
        simp
  · intro htrue
    rcases hend with ⟨hge, rfl⟩ | ⟨-, w1, -, rfl⟩
    · have hc := scanFrom_cursor argc argv opts hargc N 1 iN _ wN hN
      rw [hcs, hlen]
      omega
    · cases htrue

/-- C11, at the test program: `-o out.txt -a` has three tokens; the parse
succeeds with two invocations, one of which carried a value. -/
theorem calls_follow_scan_witness :
    (argvOf ["-o", "out.txt", "-a"]).length = 4 ∧
    (∃ r, processOptions 4 (argvOf ["-o", "out.txt", "-a"]) mainOpts mainInit = some r ∧
      (r.result = true →
        r.world.calls.length + r.world.calls.countP (fun c => c.2.hasValue) = 4 - 1)) ∧
    (processOptions 4 (argvOf ["-o", "out.txt", "-a"]) mainOpts mainInit).map
        (fun r => (r.result, r.world.calls, r.world.applies)) =
      some (true, [(0, Call.withString "out.txt".toList), (2, Call.nullary)],
        [(0, some "out.txt".toList), (2, none)]) :=
  ⟨rfl,
    match calls_follow_scan 4 (argvOf ["-o", "out.txt", "-a"]) mainOpts mainInit rfl with
    | ⟨r, _, _, _, hrun, _, _, _, _, _, _, hcount⟩ => ⟨r, hrun, hcount⟩,
    rfl⟩


/-- C12. The value-consumption decision depends only on the shape of the
matched handler and on the form of the following token. For two runs (tables,
vectors, cursors and states at will) whose tokens resolve to descriptors of the
same shape and whose following tokens agree on being present and on beginning
with `-`: `getArg` of the two handlers is one and the same function of the
lookahead, independent of callback and state; whether it yields a value is the
tabulated function of the three facts, hence the same in both runs; a value it
yields is the following token unchanged; and an iteration that goes on moves
the cursor by two when a value was yielded and by one otherwise. -/
theorem consumption_depends_on_shape_and_lookahead {σ τ : Type}
    (argc1 : Nat) (argv1 : List CStr) (opts1 : List (OptDescr σ)) (i1 k1 : Nat)
    (w1 : World σ) (o1 : CStr) (d1 : OptDescr σ)
    (argc2 : Nat) (argv2 : List CStr) (opts2 : List (OptDescr τ)) (i2 k2 : Nat)
    (w2 : World τ) (o2 : CStr) (d2 : OptDescr τ)
    (hargc1 : argv1.length = argc1) (ho1 : argv1[i1]? = some o1)
    (hfind1 : detail.findOption o1 opts1 = some (k1, d1))
    (hargc2 : argv2.length = argc2) (ho2 : argv2[i2]? = some o2)
    (hfind2 : detail.findOption o2 opts2 = some (k2, d2))
    (hshape : d1.m_argDescr.m_f.shape = d2.m_argDescr.m_f.shape)
    (hpresent : argv1[i1 + 1]?.isSome = argv2[i2 + 1]?.isSome)
    (hdash : beginsWithDash argv1[i1 + 1]? = beginsWithDash argv2[i2 + 1]?) :
    (∀ arg, d1.m_argDescr.getArg arg = d2.m_argDescr.getArg arg) ∧
    (d1.m_argDescr.getArg argv1[i1 + 1]?).isSome =
      specConsumes d1.m_argDescr.m_f.shape argv1[i1 + 1]?.isSome
        (beginsWithDash argv1[i1 + 1]?) ∧
    (d1.m_argDescr.getArg argv1[i1 + 1]?).isSome =
      (d2.m_argDescr.getArg argv2[i2 + 1]?).isSome ∧
    (∀ v, d1.m_argDescr.getArg argv1[i1 + 1]? = some v → argv1[i1 + 1]? = some v) ∧
    (∀ j1 u1, scanFrom argc1 argv1 opts1 1 i1 w1 = some (j1, u1) →
      j1 = i1 + (if specConsumes d1.m_argDescr.m_f.shape argv1[i1 + 1]?.isSome
        (beginsWithDash argv1[i1 + 1]?) then 2 else 1)) ∧
    (∀ j1 u1 j2 u2, scanFrom argc1 argv1 opts1 1 i1 w1 = some (j1, u1) →
      scanFrom argc2 argv2 opts2 1 i2 w2 = some (j2, u2) → j1 - i1 = j2 - i2) := by
  have hstep : ∀ {ρ : Type} (argc : Nat) (argv : List CStr) (opts : List (OptDescr ρ))
      (i k : Nat) (w : World ρ) (o : CStr) (d : OptDescr ρ), argv.length = argc →
      argv[i]? = some o → detail.findOption o opts = some (k, d) →
      ∀ j u, scanFrom argc argv opts 1 i w = some (j, u) →
        j = i + (if specConsumes d.m_argDescr.m_f.shape argv[i + 1]?.isSome
          (beginsWithDash argv[i + 1]?) then 2 else 1) := by
    intro ρ argc argv opts i k w o d hargc ho hfind j u hscan
    obtain ⟨-, j0, rfl, hbody⟩ := scanFrom_one_inv argc argv opts i j w u hscan
    obtain ⟨o3, k3, d3, c, ho3, hfind3, -, -, -, hcur, -⟩ :=
      loopBody_fallThrough_inv argc argv opts i j0 w u hargc hbody
    rw [ho] at ho3
    cases ho3
    rw [hfind] at hfind3
    cases hfind3
    rw [hcur]
    have hdec := getArg_isSome d.m_argDescr.m_f argv[i + 1]?
    unfold ArgDescr.getArg
    rw [hdec]
    split <;> rfl
  have hsame : (d1.m_argDescr.getArg argv1[i1 + 1]?).isSome =
      (d2.m_argDescr.getArg argv2[i2 + 1]?).isSome := by
    unfold ArgDescr.getArg
    rw [getArg_isSome, getArg_isSome, hshape, hpresent, hdash]
  refine ⟨fun arg => getArg_of_shape _ _ hshape arg, getArg_isSome _ _, hsame, ?_, ?_, ?_⟩
  · intro v hv
    rcases getArg_eq_none_or d1.m_argDescr argv1[i1 + 1]? with h | h
    · rw [h] at hv; cases hv
    · rw [← h, hv]
  · exact hstep argc1 argv1 opts1 i1 k1 w1 o1 d1 hargc1 ho1 hfind1
  · intro j1 u1 j2 u2 h1 h2
    rw [hstep argc1 argv1 opts1 i1 k1 w1 o1 d1 hargc1 ho1 hfind1 j1 u1 h1,
      hstep argc2 argv2 opts2 i2 k2 w2 o2 d2 hargc2 ho2 hfind2 j2 u2 h2,
      hshape, hpresent, hdash]
    omega

/-- C12, at two runs of the optional-argument handler of `main`: in the full
table after `-a`, and alone in a table by its long token; both lookaheads are
present and do not begin with `-`, both are consumed and handed on unchanged. -/
theorem consumption_depends_on_shape_and_lookahead_witness :
    ((argvOf ["-a", "-i", "abc"]).length = 4 ∧
      (argvOf ["-a", "-i", "abc"])[2]? = some "-i".toList ∧
      detail.findOption "-i".toList mainOpts = some (1, inputOpt) ∧
      (argvOf ["--input", "zzz"]).length = 3 ∧
      (argvOf ["--input", "zzz"])[1]? = some "--input".toList ∧
      detail.findOption "--input".toList [inputOpt] = some (0, inputOpt) ∧
      inputOpt.m_argDescr.m_f.shape = inputOpt.m_argDescr.m_f.shape ∧
      (argvOf ["-a", "-i", "abc"])[2 + 1]?.isSome = (argvOf ["--input", "zzz"])[1 + 1]?.isSome ∧
      beginsWithDash (argvOf ["-a", "-i", "abc"])[2 + 1]? =
        beginsWithDash (argvOf ["--input", "zzz"])[1 + 1]?) ∧
    (inputOpt.m_argDescr.getArg (argvOf ["-a", "-i", "abc"])[2 + 1]?).isSome =
      (inputOpt.m_argDescr.getArg (argvOf ["--input", "zzz"])[1 + 1]?).isSome ∧
    inputOpt.m_argDescr.getArg (argvOf ["-a", "-i", "abc"])[2 + 1]? = some "abc".toList ∧
    inputOpt.m_argDescr.getArg (argvOf ["--input", "zzz"])[1 + 1]? = some "zzz".toList ∧
    (scanFrom 4 (argvOf ["-a", "-i", "abc"]) mainOpts 1 2 mainWorld).map Prod.fst = some 4 ∧
    (scanFrom 3 (argvOf ["--input", "zzz"]) [inputOpt] 1 1 mainWorld).map Prod.fst = some 3 :=
  ⟨⟨rfl, rfl, rfl, rfl, rfl, rfl, rfl, rfl, rfl⟩,
    (consumption_depends_on_shape_and_lookahead
      4 (argvOf ["-a", "-i", "abc"]) mainOpts 2 1 mainWorld "-i".toList inputOpt
      3 (argvOf ["--input", "zzz"]) [inputOpt] 1 0 mainWorld "--input".toList inputOpt
      rfl rfl rfl rfl rfl rfl rfl rfl rfl).2.2.1,
    rfl, rfl, rfl, rfl⟩


/-- C13, as stated, does not hold for every table: with a descriptor whose
short token is empty the token `-` is matched, and with one whose long token
is empty the token `--` is matched; the callback is invoked and the parse
succeeds. -/
theorem bare_dash_matches_empty_token :
    detail.findOption "-".toList [longOnlyOpt] = some (0, longOnlyOpt) ∧
    (processOptions 2 (argvOf ["-"]) [longOnlyOpt] mainInit).map
        (fun r => (r.result, r.world.calls)) = some (true, [(0, Call.nullary)]) ∧
    detail.findOption "--".toList [shortOnlyOpt] = some (0, shortOnlyOpt) ∧
    (processOptions 2 (argvOf ["--"]) [shortOnlyOpt] mainInit).map
        (fun r => (r.result, r.world.calls)) = some (true, [(0, Call.nullary)]) :=
  ⟨rfl, rfl, rfl, rfl⟩

/-- C13, amended. Looking up `-` or `--` in any table makes no access past the
terminator of the token. When the scan reaches the token `-` and no descriptor
has an empty short token, or reaches the token `--` and no descriptor has an
empty long token, `findOption` reports no match and `processOptions` returns
false with the state it had on reaching the token. -/
theorem bare_dash_tokens {σ : Type} (argc : Nat) (argv : List CStr)
    (opts : List (OptDescr σ)) (st : σ) (i : Nat) (w : World σ) (o : CStr)
    (hargc : argv.length = argc) (hreach : Reaches argc argv opts st i w)
    (ho : argv[i]? = some o)
    (hbare : (o = ['-'] ∧ ∀ d ∈ opts, d.m_shortArgs ≠ []) ∨
      (o = ['-', '-'] ∧ ∀ d ∈ opts, d.m_longArg ≠ [])) :
    (∀ opts1 : List (OptDescr σ),
      detail.findOptionChecked ['-'] opts1 = some (detail.findOption ['-'] opts1) ∧
      detail.findOptionChecked ['-', '-'] opts1 = some (detail.findOption ['-', '-'] opts1)) ∧
    detail.findOptionChecked o opts = some none ∧
    detail.findOption o opts = none ∧
    processOptions argc argv opts st = some ⟨false, w⟩ := by
  have hnone : detail.findOption o opts = none := by
    rcases hbare with ⟨rfl, h⟩ | ⟨rfl, h⟩
    · rw [detail.findOption_short [] opts (by decide), detail.find_if_none_iff]
      intro e he
      simpa using h e he
    · rw [detail.findOption_long, detail.find_if_none_iff]
      intro e he
      simpa using h e he
  have hbody := loopBody_not_found argc argv opts i w o ho hnone
  obtain ⟨f, hf⟩ := reaches_resume argc argv opts st i w hargc hreach
  refine ⟨fun opts1 => ⟨detail.findOptionChecked_eq _ opts1, detail.findOptionChecked_eq _ opts1⟩,
    ?_, hnone, ?_⟩
  · rw [detail.findOptionChecked_eq, hnone]
  · rw [hf, loop_ret argc argv opts f i false w w hreach.1 hbody]

/-- C13 amended, at the table of `main`, which has no empty token: `-` and
`--` are read within bounds, find nothing, and the parse returns false. -/
theorem bare_dash_tokens_witness :
    ((argvOf ["-"]).length = 2 ∧ Reaches 2 (argvOf ["-"]) mainOpts mainInit 1 mainWorld ∧
      (argvOf ["-"])[1]? = some ['-'] ∧ ∀ d ∈ mainOpts, d.m_shortArgs ≠ []) ∧
    detail.findOptionChecked ['-'] mainOpts = some none ∧
    processOptions 2 (argvOf ["-"]) mainOpts mainInit = some ⟨false, mainWorld⟩ ∧
    processOptions 2 (argvOf ["--"]) mainOpts mainInit = some ⟨false, mainWorld⟩ :=
  ⟨⟨rfl, ⟨by decide, 0, rfl⟩, rfl, by simp [mainOpts, outputOpt, inputOpt, allOpt, helpOpt]⟩,
    (bare_dash_tokens 2 (argvOf ["-"]) mainOpts mainInit 1 mainWorld ['-'] rfl
      ⟨by decide, 0, rfl⟩ rfl
      (Or.inl ⟨rfl, by simp [mainOpts, outputOpt, inputOpt, allOpt, helpOpt]⟩)).2.1,
    (bare_dash_tokens 2 (argvOf ["-"]) mainOpts mainInit 1 mainWorld ['-'] rfl
      ⟨by decide, 0, rfl⟩ rfl
      (Or.inl ⟨rfl, by simp [mainOpts, outputOpt, inputOpt, allOpt, helpOpt]⟩)).2.2.2,
    rfl⟩


/-- C15. The program name is not part of the parsed stream: two vectors of
`argc` strings that agree at the indices `1 .. argc - 1` give the same run of
`processOptions`: same result, same captured state, same `apply` calls and same
callback invocations with the same values; the run returns; and with
`argc ≤ 1` it returns true with nothing applied or invoked. -/
theorem program_name_not_parsed {σ : Type} (argc : Nat) (argv1 argv2 : List CStr)
    (opts : List (OptDescr σ)) (st : σ)
    (hargc1 : argv1.length = argc) (hargc2 : argv2.length = argc)
    (hagree : ∀ j, 1 ≤ j → j < argc → argv1[j]? = argv2[j]?) :
    processOptions argc argv1 opts st = processOptions argc argv2 opts st ∧
    (∃ r, processOptions argc argv1 opts st = some r) ∧
    (argc ≤ 1 → processOptions argc argv1 opts st = some ⟨true, ⟨st, [], []⟩⟩) := by
  have hall : ∀ j, 1 ≤ j → argv1[j]? = argv2[j]? := by
    intro j hj
    by_cases hlt : j < argc
    · exact hagree j hj hlt
    · rw [List.getElem?_eq_none (by omega), List.getElem?_eq_none (by omega)]
  refine ⟨loop_congr argc argv1 argv2 opts hall argc 1 _ (Nat.le_refl 1),
    loop_total argc argv1 opts hargc1 argc 1 _ (by omega), ?_⟩
  intro hle
  exact loop_done argc argv1 opts argc 1 _ (by omega)

/-- C15, at the test program: under two program names the run on `-i -a` is
the same, and a vector holding only the program name is parsed with true and
no invocation. -/
theorem program_name_not_parsed_witness :
    (("prog".toList :: ["-i".toList, "-a".toList]).length = 3 ∧
      ("a.out".toList :: ["-i".toList, "-a".toList]).length = 3) ∧
    processOptions 3 ("prog".toList :: ["-i".toList, "-a".toList]) mainOpts mainInit =
      processOptions 3 ("a.out".toList :: ["-i".toList, "-a".toList]) mainOpts mainInit ∧
    processOptions 1 ["--all".toList] mainOpts mainInit = some ⟨true, mainWorld⟩ ∧
    processOptions 0 [] mainOpts mainInit = some ⟨true, mainWorld⟩ :=
  ⟨⟨rfl, rfl⟩,
    (program_name_not_parsed 3 ("prog".toList :: ["-i".toList, "-a".toList])
      ("a.out".toList :: ["-i".toList, "-a".toList]) mainOpts mainInit rfl rfl
      (fun j hj _ => by
        cases j with
        | zero => exact absurd hj (by decide)
        | succ j => rfl)).1,
    rfl, rfl⟩

/-- C17, as stated, does not hold for the vector without entries: with
`argc = 0` the loop does not iterate and the parse returns true, but the cursor
stands at its initial value 1, above `argc`. -/
theorem cursor_exceeds_zero_argc :
    ([] : List CStr).length = 0 ∧
    (scanFrom 0 [] mainOpts 0 1 mainWorld).map Prod.fst = some 1 ∧
    decide (1 ≤ 0) = false ∧
    processOptions 0 [] mainOpts mainInit = some ⟨true, mainWorld⟩ :=
  ⟨rfl, rfl, rfl, rfl⟩

/-- C17, amended. Cursor discipline of `processOptions`: after any number `n`
of iterations the cursor `i` satisfies `1 ≤ i` and `i ≤ argc`, or is the
initial 1 when `argc = 0`; `n ≤ argc - 1`; and when a further iteration starts
(`i < argc`), every index at which it reads `argv` lies in `[1, argc - 1]`, it
is at most the `(argc - 1)`-th iteration, and if it does not return it moves
the cursor by exactly 1 or exactly 2 and not past `argc`. The loop returns
within `argc - 1` iterations. -/
theorem cursor_discipline {σ : Type} (argc : Nat) (argv : List CStr)
    (opts : List (OptDescr σ)) (st : σ) (hargc : argv.length = argc) :
    (∀ n i w, scanFrom argc argv opts n 1 ⟨st, [], []⟩ = some (i, w) →
      1 ≤ i ∧ i ≤ max argc 1 ∧ (1 ≤ argc → i ≤ argc) ∧ n ≤ argc - 1 ∧
      (i < argc →
        (∀ r ∈ loopBodyReads argc argv opts i, 1 ≤ r ∧ r ≤ argc - 1) ∧
        n + 1 ≤ argc - 1 ∧
        ∀ i1 w1, scanFrom argc argv opts 1 i w = some (i1, w1) →
          (i1 = i + 1 ∨ i1 = i + 2) ∧ i1 ≤ argc)) ∧
    ∃ r, loop argc argv opts (argc - 1) 1 ⟨st, [], []⟩ = some r ∧
      processOptions argc argv opts st = some r := by
  constructor
  · intro n i w hscan
    have hge := scanFrom_cursor argc argv opts hargc n 1 i _ w hscan
    have hle := scanFrom_cursor_le argc argv opts hargc n 1 i _ w hscan
    refine ⟨by omega, by omega, fun _ => by omega, by omega, ?_⟩
    intro hlt
    refine ⟨?_, by omega, ?_⟩
    · intro r hr
      rcases loopBodyReads_mem argc argv opts i r hr with h | ⟨h, h2⟩ <;> omega
    · intro i1 w1 hstep
      obtain ⟨-, i0, rfl, hbody⟩ := scanFrom_one_inv argc argv opts i i1 w w1 hstep
      have hb := loopBody_fallThrough_bounds argc argv opts i i0 w w1 hargc hbody
      omega
  · obtain ⟨r, hr⟩ := loop_total argc argv opts hargc (argc - 1) 1 ⟨st, [], []⟩ (by omega)
    refine ⟨r, hr, ?_⟩
    have := loop_add_fuel argc argv opts (argc - 1) (argc - (argc - 1)) 1 _ r hr
    rw [show argc - 1 + (argc - (argc - 1)) = argc by omega] at this
    exact this

/-- C17 amended, at the test program on `-o out.txt -a` (`argc = 4`): the
first iteration reads the indices 1 and 2 and moves the cursor from 1 to 3,
the second reads index 3 only and moves it to 4. -/
theorem cursor_discipline_witness :
    (argvOf ["-o", "out.txt", "-a"]).length = 4 ∧
    (∀ r ∈ loopBodyReads 4 (argvOf ["-o", "out.txt", "-a"]) mainOpts 1, 1 ≤ r ∧ r ≤ 4 - 1) ∧
    loopBodyReads 4 (argvOf ["-o", "out.txt", "-a"]) mainOpts 1 = [1, 2] ∧
    loopBodyReads 4 (argvOf ["-o", "out.txt", "-a"]) mainOpts 3 = [3] ∧
    (scanFrom 4 (argvOf ["-o", "out.txt", "-a"]) mainOpts 1 1 mainWorld).map Prod.fst =
      some 3 ∧
    (scanFrom 4 (argvOf ["-o", "out.txt", "-a"]) mainOpts 2 1 mainWorld).map Prod.fst =
      some 4 :=
  ⟨rfl,
    (((cursor_discipline 4 (argvOf ["-o", "out.txt", "-a"]) mainOpts mainInit rfl).1
      0 1 mainWorld rfl).2.2.2.2 (by decide)).1,
    rfl, rfl, rfl, rfl⟩

/-- C19. Short tokens that begin with `-` are unreachable: a token of the
single-dash form never selects a descriptor whose short token begins with
`-`; whenever `findOption` selects such a descriptor, the token is `--`
followed by exactly the long token of that descriptor. -/
theorem dashed_short_token_unreachable {σ : Type} (opts : List (OptDescr σ)) (arg : CStr)
    (k : Nat) (d : OptDescr σ) (hfind : detail.findOption arg opts = some (k, d)) :
    (charAt arg 1 ≠ '-' → d.m_shortArgs = arg.drop 1 ∧ charAt d.m_shortArgs 0 ≠ '-') ∧
    (charAt d.m_shortArgs 0 = '-' →
      charAt arg 0 = '-' ∧ charAt arg 1 = '-' ∧ arg = '-' :: '-' :: d.m_longArg) := by
  have h0 : charAt arg 0 = '-' := by
    by_contra h
    rw [detail.findOption_no_dash arg opts h] at hfind
    cases hfind
  cases arg with
  | nil => exact absurd h0 (by decide)
  | cons a rest =>
    have ha : a = '-' := by simpa [charAt] using h0
    subst ha
    have h1 : charAt ('-' :: rest) 1 = charAt rest 0 := by simp [charAt]
    have hshort : charAt rest 0 ≠ '-' → d.m_shortArgs = rest := by
      intro hne
      rw [detail.findOption_short rest opts hne] at hfind
      have := ((detail.find_if_some_iff _ opts k d).mp hfind).2.1
      simpa using this
    constructor
    · intro hne
      rw [h1] at hne
      have hs := hshort hne
      exact ⟨by simpa using hs, by rw [hs]; exact hne⟩
    · intro hd
      have hr : charAt rest 0 = '-' := by
        by_contra hne
        rw [hshort hne] at hd
        exact hne hd
      cases rest with
      | nil => exact absurd hr (by decide)
      | cons b name =>
        have hb : b = '-' := by simpa [charAt] using hr
        subst hb
        rw [detail.findOption_long] at hfind
        have := ((detail.find_if_some_iff _ opts k d).mp hfind).2.1
        have hl : d.m_longArg = name := by simpa using this
        exact ⟨h0, by rw [h1]; exact hr, by rw [hl]⟩

/-- C19, at a table whose only descriptor has short and long token `-x`: the
token `---x` selects it through its long token, the token `--x` selects
nothing. -/
theorem dashed_short_token_unreachable_witness :
    detail.findOption "---x".toList [dashedOpt] = some (0, dashedOpt) ∧
    charAt dashedOpt.m_shortArgs 0 = '-' ∧
    "---x".toList = '-' :: '-' :: dashedOpt.m_longArg ∧
    (detail.findOption "--x".toList [dashedOpt]).isNone = true :=
  ⟨rfl, rfl,
    ((dashed_short_token_unreachable [dashedOpt] "---x".toList 0 dashedOpt rfl).2 rfl).2.2,
    rfl⟩


/-- C14. Usage text layout, for a table whose name lengths leave room for the
gutter in `size_type`: `usage` writes, behind what the stream holds, the line
`Usage: <name> [OPTIONS]`, an empty line, and one row per descriptor in table
order, each row being `-<short>, --<long>`, then `M - (len short + len long) + 4`
spaces, then the explanation and a line end, where `M` is the maximum of
`len short + len long` over the table. In every row the explanation starts at
offset `M + 9`, and a row of maximal name length has exactly 4 spaces. -/
theorem usage_layout {σ : Type} (name : CStr) (opts : List (OptDescr σ)) (out : List Char)
    (hfit : ∀ o ∈ opts, o.m_shortArgs.length + o.m_longArg.length + 4 < sizeMod) :
    ∃ M, (∀ o ∈ opts, o.m_shortArgs.length + o.m_longArg.length ≤ M) ∧
      (opts ≠ [] → ∃ o ∈ opts, o.m_shortArgs.length + o.m_longArg.length = M) ∧
      usage name opts out =
        out ++ "Usage: ".toList ++ name ++ " [OPTIONS]".toList ++ ['\n'] ++ ['\n'] ++
          (opts.map (fun o => "-".toList ++ o.m_shortArgs ++ ", --".toList ++ o.m_longArg ++
            List.replicate (M - (o.m_shortArgs.length + o.m_longArg.length) + 4) ' ' ++
            o.m_explanation ++ ['\n'])).flatten ∧
      (∀ o ∈ opts, ("-".toList ++ o.m_shortArgs ++ ", --".toList ++ o.m_longArg ++
        List.replicate (M - (o.m_shortArgs.length + o.m_longArg.length) + 4) ' ').length =
          M + 9) ∧
      (∀ o ∈ opts, o.m_shortArgs.length + o.m_longArg.length = M →
        M - (o.m_shortArgs.length + o.m_longArg.length) + 4 = 4) := by
  have hle : ∀ o ∈ opts, o.m_shortArgs.length + o.m_longArg.length ≤ detail.maxlen opts := by
    intro o ho
    rw [← namesSize_eq o (hfit o ho)]
    exact detail.maxlen_ge opts o ho
  refine ⟨detail.maxlen opts, hle, ?_, ?_, ?_, ?_⟩
  · intro hne
    obtain ⟨o, ho, h⟩ := detail.maxlen_attained opts hne
    exact ⟨o, ho, by rw [← h, namesSize_eq o (hfit o ho)]⟩
  · have hrows : opts.map (detail.usageRow (detail.maxlen opts) []) =
        opts.map (fun o => "-".toList ++ o.m_shortArgs ++ ", --".toList ++ o.m_longArg ++
          List.replicate (detail.maxlen opts - (o.m_shortArgs.length + o.m_longArg.length) + 4)
            ' ' ++ o.m_explanation ++ ['\n']) := by
      apply List.map_congr_left
      intro o ho
      unfold detail.usageRow
      rw [namesSize_eq o (hfit o ho),
        detail.spaceCount_eq _ _ (hle o ho) (detail.maxlen_fit opts hfit), List.nil_append]
    simp only [usage, detail.optsUsage, detail.foldl_usageRow, hrows]
  · intro o ho
    have h1 : "-".toList.length = 1 := rfl
    have h2 : ", --".toList.length = 4 := rfl
    have := hle o ho
    simp only [List.length_append, List.length_replicate, h1, h2]
    omega
  · intro o _ h
    omega

/-- C14, at the test program: the widest names are `o` with `output`, of
length 7, and the text is the usage line, an empty line and four rows whose
explanations all start at offset 16. -/
theorem usage_layout_witness :
    (∀ o ∈ mainOpts, o.m_shortArgs.length + o.m_longArg.length + 4 < sizeMod) ∧
    (∃ M, (∀ o ∈ mainOpts, o.m_shortArgs.length + o.m_longArg.length ≤ M) ∧
      (mainOpts ≠ [] → ∃ o ∈ mainOpts, o.m_shortArgs.length + o.m_longArg.length = M)) ∧
    usage "prog".toList mainOpts [] =
      ("Usage: prog [OPTIONS]\n\n" ++
       "-o, --output    the file to output to\n" ++
       "-i, --input     the file to input from\n" ++
       "-a, --all       do all the things\n" ++
       "-?, --help      display help\n").toList :=
  ⟨by simp [mainOpts, outputOpt, inputOpt, allOpt, helpOpt, sizeMod],
    (usage_layout "prog".toList mainOpts []
      (by simp [mainOpts, outputOpt, inputOpt, allOpt, helpOpt, sizeMod])).imp
      (fun _ h => ⟨h.1, h.2.1⟩),
    by decide⟩

/-- C16. Usage rendering is deterministic and stateless: what `usage` writes
is the same text whatever the stream already holds, so a second call writes the
first text again; and two tables with the same short tokens, long tokens and
explanations, whatever their handlers, descriptions and captured state, give
the same text. The table is a read-only argument of `usage`. -/
theorem usage_deterministic {σ τ : Type} (name : CStr) (opts1 : List (OptDescr σ))
    (opts2 : List (OptDescr τ)) (out : List Char)
    (hsame : opts1.map (fun o => (o.m_shortArgs, o.m_longArg, o.m_explanation)) =
      opts2.map (fun o => (o.m_shortArgs, o.m_longArg, o.m_explanation))) :
    usage name opts1 out = out ++ usage name opts1 [] ∧
    usage name opts1 (usage name opts1 out) =
      out ++ usage name opts1 [] ++ usage name opts1 [] ∧
    usage name opts2 out = usage name opts1 out := by
  have hsize : opts1.map (fun o => o.namesSize) = opts2.map (fun o => o.namesSize) := by
    have := congrArg (List.map (fun t : CStr × CStr × CStr =>
      (t.1.length + t.2.1.length) % sizeMod)) hsame
    simpa [List.map_map, Function.comp_def, OptDescr.namesSize] using this
  have hmax : detail.maxlen opts1 = detail.maxlen opts2 := by
    have h1 : ∀ (ρ : Type) (l : List (OptDescr ρ)) (a : Nat),
        l.foldl (fun m o => max m o.namesSize) a =
          (l.map (fun o => o.namesSize)).foldl (fun m n => max m n) a := by
      intro ρ l
      induction l with
      | nil => intro a; rfl
      | cons x xs ih => intro a; simp only [List.foldl_cons, List.map_cons]; exact ih _
    unfold detail.maxlen
    rw [h1 σ opts1 0, h1 τ opts2 0, hsize]
  have hrows : ∀ m : Nat, opts1.map (detail.usageRow m []) = opts2.map (detail.usageRow m []) := by
    intro m
    have hfac : ∀ (ρ : Type) (l : List (OptDescr ρ)),
        l.map (detail.usageRow m []) =
          (l.map (fun o => (o.m_shortArgs, o.m_longArg, o.m_explanation))).map
            (fun t : CStr × CStr × CStr =>
              ([] : List Char) ++ "-".toList ++ t.1 ++ ", --".toList ++ t.2.1 ++
                List.replicate (detail.spaceCount m ((t.1.length + t.2.1.length) % sizeMod))
                  ' ' ++ t.2.2 ++ ['\n']) := by
      intro ρ l
      rw [List.map_map]
      apply List.map_congr_left
      intro o _
      rfl
    rw [hfac σ opts1, hfac τ opts2, hsame]
  refine ⟨usage_append name opts1 out, ?_, ?_⟩
  · rw [usage_append name opts1 (usage name opts1 out), usage_append name opts1 out]
  · simp only [usage, detail.optsUsage, detail.foldl_usageRow, hmax, hrows]

/-- C16, at the flag descriptor of `main` and a descriptor with the same
tokens and explanation but another handler over another state: both tables
render the same text, and rendering twice writes it twice. -/
theorem usage_deterministic_witness :
    [allOpt].map (fun o => (o.m_shortArgs, o.m_longArg, o.m_explanation)) =
      ([⟨"a".toList, "all".toList, ⟨"<n>".toList, .mandatory (fun _ u => u)⟩,
        "do all the things".toList⟩] : List (OptDescr Unit)).map
        (fun o => (o.m_shortArgs, o.m_longArg, o.m_explanation)) ∧
    usage "prog".toList
        ([⟨"a".toList, "all".toList, ⟨"<n>".toList, .mandatory (fun _ u => u)⟩,
          "do all the things".toList⟩] : List (OptDescr Unit)) [] =
      usage "prog".toList [allOpt] [] ∧
    usage "prog".toList [allOpt] (usage "prog".toList [allOpt] []) =
      ("Usage: prog [OPTIONS]\n\n-a, --all    do all the things\n" ++
       "Usage: prog [OPTIONS]\n\n-a, --all    do all the things\n").toList :=
  ⟨rfl,
    (usage_deterministic "prog".toList [allOpt]
      ([⟨"a".toList, "all".toList, ⟨"<n>".toList, .mandatory (fun _ u => u)⟩,
        "do all the things".toList⟩] : List (OptDescr Unit)) [] rfl).2.2,
    by decide⟩

/-- C18. The padding width in `optsUsage` never underflows: for a table whose
name lengths leave room for the gutter in `size_type` and a descriptor `o` in
it, `maxlen` is at least the summed name length `l` of `o`, the `size_type`
value of `maxlen - l + 4` is its mathematical value, and it lies between 4
and `maxlen + 4`, below the modulus. For the empty table `optsUsage` writes
nothing. -/
theorem padding_never_underflows {σ : Type} (opts : List (OptDescr σ)) (o : OptDescr σ)
    (out : List Char) (ho : o ∈ opts)
    (hfit : ∀ o ∈ opts, o.m_shortArgs.length + o.m_longArg.length + 4 < sizeMod) :
    o.namesSize = o.m_shortArgs.length + o.m_longArg.length ∧
    o.m_shortArgs.length + o.m_longArg.length ≤ detail.maxlen opts ∧
    detail.spaceCount (detail.maxlen opts) o.namesSize =
      detail.maxlen opts - (o.m_shortArgs.length + o.m_longArg.length) + 4 ∧
    4 ≤ detail.spaceCount (detail.maxlen opts) o.namesSize ∧
    detail.spaceCount (detail.maxlen opts) o.namesSize ≤ detail.maxlen opts + 4 ∧
    detail.maxlen opts + 4 < sizeMod ∧
    detail.optsUsage ([] : List (OptDescr σ)) out = out := by
  have hsize := namesSize_eq o (hfit o ho)
  have hle : o.namesSize ≤ detail.maxlen opts := detail.maxlen_ge opts o ho
  have hmax := detail.maxlen_fit opts hfit
  have hsp := detail.spaceCount_eq (detail.maxlen opts) o.namesSize hle hmax
  refine ⟨hsize, by rw [← hsize]; exact hle, by rw [hsp, hsize], by rw [hsp]; omega,
    by rw [hsp]; omega, hmax, rfl⟩

/-- C18, at the test program: `maxlen` is 7; the row of `-a`, `--all` (name
length 4) gets 7 spaces and the row of `-o`, `--output` (name length 7) gets
4. -/
theorem padding_never_underflows_witness :
    (allOpt ∈ mainOpts ∧
      ∀ o ∈ mainOpts, o.m_shortArgs.length + o.m_longArg.length + 4 < sizeMod) ∧
    detail.maxlen mainOpts = 7 ∧
    4 ≤ detail.spaceCount (detail.maxlen mainOpts) allOpt.namesSize ∧
    detail.spaceCount (detail.maxlen mainOpts) allOpt.namesSize = 7 ∧
    detail.spaceCount (detail.maxlen mainOpts) outputOpt.namesSize = 4 :=
  ⟨⟨by simp [mainOpts], by simp [mainOpts, outputOpt, inputOpt, allOpt, helpOpt, sizeMod]⟩,
    by decide,
    (padding_never_underflows mainOpts allOpt [] (by simp [mainOpts])
      (by simp [mainOpts, outputOpt, inputOpt, allOpt, helpOpt, sizeMod])).2.2.2.1,
    by decide, by decide⟩

end cmdline_opts
